import Mathlib

/-!
Verification development for the OCR bill-extraction webhook
(`webhook_app_final.py`).

The Python source uses `re` regular expressions.  We embed the three
layout patterns of `extract_bill_items_regex` into a small backtracking
matcher `reMatch` that mirrors CPython `re` semantics on the constructs
actually used: leftmost match, greedy `+` / `{m,n}` / `?` (longest or
present alternative first), lazy `+?` (shortest first), character
classes, and named capture groups.  `finditer` is modelled by `finditer`
below: repeated leftmost search, continuing at the end of the previous
match (one past it for an empty match).

Python's `\s` and `\d` additionally match some non-ASCII whitespace and
digit characters; we model the ASCII sets, which is the behaviour on all
inputs considered here and does not affect any of the stated properties
(the same class predicates are used uniformly on both sides).
-/

namespace Webhook

/-- ASCII whitespace, the characters matched by `\s` (ASCII range). -/
def isWSC (c : Char) : Bool :=
  c = ' ' || c = '\t' || c = '\n' || c = '\r' || c = '\x0b' || c = '\x0c'

/-- ASCII decimal digit, the characters matched by `\d` (ASCII range). -/
def isDigitC (c : Char) : Bool :=
  '0' ≤ c && c ≤ '9'

/-- The character class `[A-Za-z0-9\-\(\)\/\., ]` of the pharmacy and
investigation `name` groups. -/
def pharmNameChar (c : Char) : Bool :=
  ('A' ≤ c && c ≤ 'Z') || ('a' ≤ c && c ≤ 'z') || ('0' ≤ c && c ≤ '9') ||
  c = '-' || c = '(' || c = ')' || c = '/' || c = '.' || c = ',' || c = ' '

/-- The character class `[A-Za-z0-9\-\|\.\(\)\/, ]` of the hospital
`name` group: the pharmacy class plus the pipe character. -/
def hospNameChar (c : Char) : Bool :=
  pharmNameChar c || c = '|'

/-- Abstract syntax of the regular-expression fragment used by the three
patterns: character classes, sequencing, greedy option `(?:...)?`,
greedy plus `+`, lazy plus `+?`, greedy bounded repetition `{lo,hi}`
(all repetitions in the source range over single-character classes),
and named capture groups `(?P<g>...)`. -/
inductive RE where
  | eps
  | cls (p : Char → Bool)
  | seq (a b : RE)
  | opt (a : RE)
  | plusG (p : Char → Bool)
  | plusL (p : Char → Bool)
  | repG (p : Char → Bool) (lo hi : Nat)
  | grp (g : String) (a : RE)

/-- Capture environment: group name paired with the captured characters. -/
abbrev Caps := List (String × List Char)

/-- Continuations for the backtracking matcher. -/
abbrev K := List Char → Caps → Option (List Char × Caps)

/-- Try candidate repetition counts in order; first success wins
(backtracking priority). -/
def firstSome (f : Nat → Option α) : List Nat → Option α
  | [] => none
  | n :: ns =>
    match f n with
    | some r => some r
    | none => firstSome f ns

/-- `[n, n-1, ..., 1]`: candidate counts for a greedy repetition. -/
def descList : Nat → List Nat
  | 0 => []
  | n + 1 => (n + 1) :: descList n

/-- `[1, 2, ..., n]`: candidate counts for a lazy repetition. -/
def ascList (n : Nat) : List Nat := (descList n).reverse

/-- Candidate counts for greedy `{lo,hi}` with `n` available characters:
`min hi n` down to `lo`. -/
def repList (lo hi n : Nat) : List Nat :=
  (descList (min hi n)).filter (fun i => lo ≤ i)

/-- Backtracking matcher in continuation-passing style.  Mirrors CPython
`re` backtracking order on the constructs used by the source patterns. -/
def reMatch : RE → List Char → Caps → K → Option (List Char × Caps)
  | .eps, s, caps, k => k s caps
  | .cls p, s, caps, k =>
    match s with
    | [] => none
    | c :: cs => if p c then k cs caps else none
  | .seq a b, s, caps, k =>
    reMatch a s caps (fun s' caps' => reMatch b s' caps' k)
  | .opt a, s, caps, k =>
    match reMatch a s caps k with
    | some r => some r
    | none => k s caps
  | .plusG p, s, caps, k =>
    firstSome (fun i => k (s.drop i) caps) (descList (s.takeWhile p).length)
  | .plusL p, s, caps, k =>
    firstSome (fun i => k (s.drop i) caps) (ascList (s.takeWhile p).length)
  | .repG p lo hi, s, caps, k =>
    firstSome (fun i => k (s.drop i) caps) (repList lo hi (s.takeWhile p).length)
  | .grp g a, s, caps, k =>
    reMatch a s caps (fun s' caps' => k s' (caps' ++ [(g, s.take (s.length - s'.length))]))

/-- Anchored match attempt at position `i` of `chars`; returns the end
position of the match and the captures, like `pattern.match(text, i)`. -/
def matchAt (pat : RE) (chars : List Char) (i : Nat) : Option (Nat × Caps) :=
  match reMatch pat (chars.drop i) [] (fun rest caps => some (rest, caps)) with
  | none => none
  | some (rest, caps) => some (chars.length - rest.length, caps)

/-- A match object: start, end and captures, like `re.Match`. -/
structure MatchRes where
  mstart : Nat
  mstop : Nat
  caps : Caps
deriving DecidableEq, Repr

/-- Leftmost search: try `matchAt` at `pos`, `pos+1`, ... while fuel
lasts; first position that matches wins. -/
def searchAux (pat : RE) (chars : List Char) : Nat → Nat → Option MatchRes
  | 0, _ => none
  | fuel + 1, pos =>
    match matchAt pat chars pos with
    | some (stop, caps) => some ⟨pos, stop, caps⟩
    | none => searchAux pat chars fuel (pos + 1)

/-- Leftmost search from `pos`, trying every position up to the end of
the text (like `pattern.search(text, pos)`). -/
def search (pat : RE) (chars : List Char) (pos : Nat) : Option MatchRes :=
  searchAux pat chars (chars.length + 1 - pos) pos

/-- The scanning loop of `pattern.finditer(text)`: after a match, resume
at its end (one past it if the match was empty). -/
def findAux (pat : RE) (chars : List Char) : Nat → Nat → List MatchRes
  | 0, _ => []
  | fuel + 1, pos =>
    match search pat chars pos with
    | none => []
    | some m => m :: findAux pat chars fuel (if m.mstart < m.mstop then m.mstop else m.mstop + 1)

/-- All non-overlapping matches of `pat` in `chars`, left to right:
`pattern.finditer(text)`. -/
def finditer (pat : RE) (chars : List Char) : List MatchRes :=
  findAux pat chars (chars.length + 2) 0

/-- The optional leading serial number `(?:\d+\s+)?` of the pharmacy
pattern. -/
def serialOpt : RE := .opt (.seq (.plusG isDigitC) (.plusG isWSC))

/-- Whitespace separator `\s+`. -/
def wsPlus : RE := .plusG isWSC

/-- Optional fractional part `(?:\.\d+)?` of a numeric field. -/
def fracOpt : RE := .opt (.seq (.cls (fun c => c = '.')) (.plusG isDigitC))

/-- Named numeric capture group `(?P<g>\d+(?:\.\d+)?)`. -/
def numGroup (g : String) : RE :=
  .grp g (.seq (.plusG isDigitC) fracOpt)

/-- The numeric triple `(?P<qty>...)\s+(?P<rate>...)\s+(?P<amount>...)`
shared by all three patterns. -/
def numTriple : RE :=
  .seq (numGroup "qty") (.seq wsPlus (.seq (numGroup "rate") (.seq wsPlus (numGroup "amount"))))

/-- Shared core of the pharmacy and hospital patterns, parametrised by
the name character class: `(?P<name>[class]+?)\s+` followed by the
numeric triple. -/
def coreRE (p : Char → Bool) : RE :=
  .seq (.grp "name" (.plusL p)) (.seq wsPlus numTriple)

/-- Pharmacy pattern:
`(?:\d+\s+)?(?P<name>[A-Za-z0-9\-\(\)\/\., ]+?)\s+(?P<qty>\d+(?:\.\d+)?)\s+(?P<rate>\d+(?:\.\d+)?)\s+(?P<amount>\d+(?:\.\d+)?)`. -/
def pharmacyPattern : RE := .seq serialOpt (coreRE pharmNameChar)

/-- Hospital pattern:
`(?P<name>[A-Za-z0-9\-\|\.\(\)\/, ]+?)\s+(?P<qty>\d+(?:\.\d+)?)\s+(?P<rate>\d+(?:\.\d+)?)\s+(?P<amount>\d+(?:\.\d+)?)`. -/
def hospitalPattern : RE := coreRE hospNameChar

/-- The date token `\d{1,2}\/\d{1,2}\/\d{2,4}` of the investigation
pattern (consumed, not captured). -/
def datePart : RE :=
  .seq (.repG isDigitC 1 2) (.seq (.cls (fun c => c = '/'))
    (.seq (.repG isDigitC 1 2) (.seq (.cls (fun c => c = '/')) (.repG isDigitC 2 4))))

/-- Investigation pattern:
`(?P<name>[A-Za-z0-9\-\(\)\/\., ]+?)\s+\d{1,2}\/\d{1,2}\/\d{2,4}\s+(?P<qty>\d+(?:\.\d+)?)\s+(?P<rate>\d+(?:\.\d+)?)\s+(?P<amount>\d+(?:\.\d+)?)`. -/
def investigationPattern : RE :=
  .seq (.grp "name" (.plusL pharmNameChar)) (.seq wsPlus (.seq datePart (.seq wsPlus numTriple)))

/-- The ordered pattern list of `extract_bill_items_regex`. -/
def patterns : List RE := [pharmacyPattern, hospitalPattern, investigationPattern]

/-- Collapse each maximal whitespace run to a single space:
`re.sub(r"\s+", " ", name)`. -/
def collapseWS : List Char → List Char
  | [] => []
  | [c] => if isWSC c then [' '] else [c]
  | c :: d :: cs =>
    if isWSC c then
      (if isWSC d then collapseWS (d :: cs) else ' ' :: collapseWS (d :: cs))
    else c :: collapseWS (d :: cs)

/-- Remove trailing whitespace (the right half of `.strip()`). -/
def trimRight : List Char → List Char
  | [] => []
  | c :: cs =>
    match trimRight cs with
    | [] => if isWSC c then [] else [c]
    | r => c :: r

/-- The name normalisation of line 198 of the source:
`re.sub(r"\s+", " ", name).strip()`. -/
def normName (s : String) : String :=
  String.mk (trimRight ((collapseWS s.data).dropWhile isWSC))

/-- Numeric value of a digit string. -/
def digitsVal (l : List Char) : Nat :=
  l.foldl (fun acc c => acc * 10 + (c.toNat - '0'.toNat)) 0

/-- Python `float(...)` on the strings reachable from the numeric
capture groups (characters drawn from `[0-9.]`): digits with an optional
fractional part; anything else raises `ValueError`, modelled as
`Except.error`.  Values are represented exactly as rationals. -/
def pyFloat (s : String) : Except String ℚ :=
  match s.data.dropWhile isDigitC with
  | [] =>
    if (s.data.takeWhile isDigitC).isEmpty then
      .error "could not convert string to float"
    else .ok (digitsVal (s.data.takeWhile isDigitC))
  | c :: frac =>
    if c = '.' && frac.all isDigitC &&
        !((s.data.takeWhile isDigitC).isEmpty && frac.isEmpty) then
      .ok ((digitsVal (s.data.takeWhile isDigitC) : ℚ) +
        (digitsVal frac : ℚ) / (10 : ℚ) ^ frac.length)
    else .error "could not convert string to float"

/-- The structured record built for every match (lines 204-209). -/
structure LineItem where
  item_name : String
  item_quantity : ℚ
  item_rate : ℚ
  item_amount : ℚ
deriving DecidableEq, Repr

/-- Decidable equality on `Except`, for evaluating the extractor on
concrete inputs. -/
instance instDecEqExcept {ε α : Type} [DecidableEq ε] [DecidableEq α] :
    DecidableEq (Except ε α) := fun x y =>
  match x, y with
  | .ok a, .ok b =>
    match decEq a b with
    | isTrue h => isTrue (by rw [h])
    | isFalse h => isFalse (fun hh => h (by cases hh; rfl))
  | .error a, .error b =>
    match decEq a b with
    | isTrue h => isTrue (by rw [h])
    | isFalse h => isFalse (fun hh => h (by cases hh; rfl))
  | .ok _, .error _ => isFalse (fun hh => by cases hh)
  | .error _, .ok _ => isFalse (fun hh => by cases hh)

/-- Capture lookup `m.group(g)` by group name. -/
def getCap (caps : Caps) (g : String) : List Char :=
  match caps.find? (fun x => x.1 == g) with
  | some x => x.2
  | none => []

/-- Build one `LineItem` from a match, as the loop body of lines 197-209
does: normalise the name, `float` the three numeric captures (a failure
is a raised `ValueError`, modelled as the error case). -/
def mkItem (m : MatchRes) : Except String LineItem :=
  let name := normName (String.mk (getCap m.caps "name"))
  match pyFloat (String.mk (getCap m.caps "qty")) with
  | .error e => .error e
  | .ok qty =>
    match pyFloat (String.mk (getCap m.caps "rate")) with
    | .error e => .error e
    | .ok rate =>
      match pyFloat (String.mk (getCap m.caps "amount")) with
      | .error e => .error e
      | .ok amount =>
        .ok { item_name := name, item_quantity := qty,
              item_rate := rate, item_amount := amount }

/-- Inner loop of `extract_bill_items_regex`: one item per match, in
match order; a `float` failure aborts (propagated exception). -/
def mapItems : List MatchRes → Except String (List LineItem)
  | [] => .ok []
  | m :: ms =>
    match mkItem m with
    | .error e => .error e
    | .ok it =>
      match mapItems ms with
      | .error e => .error e
      | .ok rest => .ok (it :: rest)

/-- Outer loop of `extract_bill_items_regex`: apply each pattern in turn
to the full text, appending the resulting items. -/
def extractLoop (pats : List RE) (chars : List Char) : Except String (List LineItem) :=
  match pats with
  | [] => .ok []
  | p :: ps =>
    match mapItems (finditer p chars) with
    | .error e => .error e
    | .ok first =>
      match extractLoop ps chars with
      | .error e => .error e
      | .ok rest => .ok (first ++ rest)

/-- The function `extract_bill_items_regex(text)` (lines 166-211). -/
def extract_bill_items_regex (text : String) : Except String (List LineItem) :=
  extractLoop patterns text.data

/-- The set `ALLOWED_EXTENSIONS` (line 63), as an ordered list. -/
def ALLOWED_EXTENSIONS : List String := ["pdf", "png", "jpg", "jpeg"]

/-- Test for a character other than the dot separator. -/
def notDot (c : Char) : Bool := c ≠ '.'

/-- The characters after the last dot: `filename.rsplit(".", 1)[1]`
(meaningful when a dot is present). -/
def afterLastDot (l : List Char) : List Char :=
  ((l.reverse.takeWhile notDot).reverse)

/-- The function `allowed_file` (lines 68-69). -/
def allowed_file (filename : String) : Bool :=
  filename.data.contains '.' &&
    ALLOWED_EXTENSIONS.contains (String.mk ((afterLastDot filename.data).map Char.toLower))

/-- One entry of `pagewise_line_items` (lines 257-261). -/
structure PageOut where
  page_no : String
  page_type : String
  bill_items : List LineItem
deriving DecidableEq, Repr

/-- The `data` part of the success response (lines 271-274). -/
structure OcrResponse where
  pagewise_line_items : List PageOut
  total_item_count : Nat
deriving DecidableEq, Repr

/-- The aggregation loop of lines 249-261: `enumerate` over the pages
produced by the OCR stage (key-value pairs, keys ignored), re-indexing
to sequential 1-based string page numbers and summing item counts. -/
def buildPages (pages : List (String × String)) (idx : Nat) :
    Except String (List PageOut × Nat) :=
  match pages with
  | [] => .ok ([], 0)
  | (_, text) :: rest =>
    match extract_bill_items_regex text with
    | .error e => .error e
    | .ok bill_items =>
      match buildPages rest (idx + 1) with
      | .error e => .error e
      | .ok (ps, total) =>
        .ok (⟨toString (idx + 1), "Bill Detail", bill_items⟩ :: ps,
             bill_items.length + total)

/-- Detail string of the re-raised unsupported-type error.  The
`HTTPException(status_code=400, detail=...)` raised on line 222 inside
the `try` block is caught by the `except Exception as e` on line 277
and re-raised as `HTTPException(status_code=500, detail=str(e))`;
Starlette renders `str(e)` as `"{status_code}: {detail}"`.  The
extension list in the detail comes from iterating the Python set
`ALLOWED_EXTENSIONS`, whose order is unspecified; this model fixes one
representative order, and no theorem below depends on the text of this
string. -/
def unsupportedDetail : String :=
  "400: Unsupported file type. Allowed: pdf, png, jpg, jpeg"

/-- The `/webhook/ocr` handler (lines 218-278), with the OCR stage
abstracted as its result: the page-keyed texts it produced.  Rejection
of a disallowed filename happens before the OCR result is consulted,
but the `HTTPException(400)` it raises sits inside the `try` block, so
the blanket `except Exception` catches it and re-raises it as a 500
server error whose detail is `str(e)`; every other processing
exception likewise becomes a 500 with its message as detail. -/
def ocr_webhook (filename : String) (ocrResult : List (String × String)) :
    Except (Nat × String) OcrResponse :=
  if !allowed_file filename then
    .error (500, unsupportedDetail)
  else
    match buildPages ocrResult 0 with
    | .ok (ps, total) => .ok ⟨ps, total⟩
    | .error e => .error (500, e)

/-- A list of characters is separated when no two adjacent characters
are both whitespace and every whitespace character is a plain space:
exactly the shape produced by `collapseWS`. -/
def SepWS (l : List Char) : Prop :=
  List.Chain' (fun a b => ¬(isWSC a = true ∧ isWSC b = true)) l ∧
  ∀ c ∈ l, isWSC c = true → c = ' '

/-- Shape of a numeric capture produced by `\d+(?:\.\d+)?`: nonempty
digits followed by an optional dot with nonempty fractional digits. -/
def NumShape (w : List Char) : Prop :=
  ∃ a b, w = a ++ b ∧ a ≠ [] ∧ (∀ c ∈ a, isDigitC c = true) ∧
    (b = [] ∨ ∃ f, b = '.' :: f ∧ f ≠ [] ∧ ∀ c ∈ f, isDigitC c = true)

/-- The record invariant every produced `LineItem` satisfies: the three
numeric fields are non-negative and the name is a fixed point of the
whitespace normalisation. -/
def GoodItem (it : LineItem) : Prop :=
  0 ≤ it.item_quantity ∧ 0 ≤ it.item_rate ∧ 0 ≤ it.item_amount ∧
    normName it.item_name = it.item_name

/-- Specification-side reading of the extension rule: the filename
splits as `base ++ "." ++ ext` where `ext` is the (dot-free) final
dot-suffix and its lowercasing is an allowed extension. -/
def SpecAllowed (f : String) : Prop :=
  ∃ base ext : List Char, f.data = base ++ '.' :: ext ∧ '.' ∉ ext ∧
    String.mk (ext.map Char.toLower) ∈ ALLOWED_EXTENSIONS

end Webhook

namespace Webhook

/-! ### Basic facts about the candidate lists and `firstSome` -/

theorem firstSome_eq_some {α} {f : Nat → Option α} {l : List Nat} {r : α}
    (h : firstSome f l = some r) : ∃ n ∈ l, f n = some r := by
  induction l with
  | nil => simp [firstSome] at h
  | cons m ms ih =>
    rw [firstSome] at h
    cases hm : f m with
    | some v =>
      rw [hm] at h
      exact ⟨m, by simp, by rw [hm]; exact h⟩
    | none =>
      rw [hm] at h
      obtain ⟨n, hn, hf⟩ := ih h
      exact ⟨n, by simp [hn], hf⟩

theorem firstSome_isSome_of_mem {α} {f : Nat → Option α} {l : List Nat} {n : Nat}
    (hn : n ∈ l) (hf : (f n).isSome) : (firstSome f l).isSome := by
  induction l with
  | nil => simp at hn
  | cons m ms ih =>
    rw [firstSome]
    cases hm : f m with
    | some v => simp
    | none =>
      rcases List.mem_cons.mp hn with h | h
      · subst h; rw [hm] at hf; simp at hf
      · exact ih h

theorem firstSome_eq_none_iff {α} {f : Nat → Option α} {l : List Nat} :
    firstSome f l = none ↔ ∀ n ∈ l, f n = none := by
  induction l with
  | nil => simp [firstSome]
  | cons m ms ih =>
    rw [firstSome]
    cases hm : f m with
    | some v => simp [hm]
    | none => simpa [hm] using ih

theorem mem_descList {n m : Nat} : m ∈ descList n ↔ 1 ≤ m ∧ m ≤ n := by
  induction n with
  | zero => simp [descList]; omega
  | succ k ih =>
    rw [descList]
    simp only [List.mem_cons, ih]
    omega

theorem mem_ascList {n m : Nat} : m ∈ ascList n ↔ 1 ≤ m ∧ m ≤ n := by
  rw [ascList, List.mem_reverse, mem_descList]

theorem of_mem_repList {lo hi n m : Nat} (h : m ∈ repList lo hi n) :
    lo ≤ m ∧ m ≤ hi ∧ m ≤ n ∧ 1 ≤ m := by
  rw [repList, List.mem_filter, mem_descList] at h
  obtain ⟨⟨h1, h2⟩, h3⟩ := h
  simp only [decide_eq_true_eq] at h3
  have ha := Nat.min_le_left hi n
  have hb := Nat.min_le_right hi n
  omega

/-! ### Facts about `takeWhile` and `take` -/

theorem length_takeWhile_le_len {α} (p : α → Bool) (l : List α) :
    (l.takeWhile p).length ≤ l.length := by
  induction l with
  | nil => simp
  | cons c cs ih =>
    by_cases hp : p c
    · rw [List.takeWhile_cons_of_pos hp]; simpa using ih
    · rw [List.takeWhile_cons_of_neg hp]; simp

theorem all_take_of_le_takeWhile {p : Char → Bool} {s : List Char} {i : Nat}
    (h : i ≤ (s.takeWhile p).length) : (s.take i).all p = true := by
  rw [List.all_eq_true]
  intro c hc
  have h1 : s.take i = (s.takeWhile p).take i := by
    conv_lhs => rw [← List.takeWhile_append_dropWhile (p := p) (l := s)]
    rw [List.take_append_eq_append_take, Nat.sub_eq_zero_of_le h]
    simp
  rw [h1] at hc
  exact List.mem_takeWhile_imp (List.mem_of_mem_take hc)

theorem take_ne_nil_of_pos {α} {s : List α} {i : Nat} (h1 : 1 ≤ i) (h2 : i ≤ s.length) :
    s.take i ≠ [] := by
  rw [← List.length_pos, List.length_take]
  omega

theorem length_takeWhile_mono {p q : Char → Bool} (hpq : ∀ c, p c = true → q c = true)
    (s : List Char) : (s.takeWhile p).length ≤ (s.takeWhile q).length := by
  induction s with
  | nil => simp
  | cons c cs ih =>
    by_cases hp : p c
    · rw [List.takeWhile_cons_of_pos hp, List.takeWhile_cons_of_pos (hpq c hp)]
      simpa using ih
    · rw [List.takeWhile_cons_of_neg hp]; simp

theorem takeWhile_append_of_all {p : Char → Bool} {a b : List Char}
    (h : ∀ c ∈ a, p c = true) : (a ++ b).takeWhile p = a ++ b.takeWhile p := by
  induction a with
  | nil => simp
  | cons x xs ih =>
    rw [List.cons_append, List.takeWhile_cons_of_pos (h x (by simp)), List.cons_append,
      ih (fun c hc => h c (by simp [hc]))]

theorem dropWhile_append_of_all {p : Char → Bool} {a b : List Char}
    (h : ∀ c ∈ a, p c = true) : (a ++ b).dropWhile p = b.dropWhile p := by
  induction a with
  | nil => simp
  | cons x xs ih =>
    rw [List.cons_append, List.dropWhile_cons, if_pos (h x (by simp))]
    exact ih (fun c hc => h c (by simp [hc]))

/-! ### Inversion and forward lemmas for the matcher -/

theorem reMatch_consume :
    ∀ (e : RE) (s : List Char) (caps : Caps) (k : K) (r : List Char × Caps),
      reMatch e s caps k = some r →
      ∃ s' caps', s'.length ≤ s.length ∧ k s' caps' = some r := by
  intro e
  induction e with
  | eps =>
    intro s caps k r h
    exact ⟨s, caps, le_refl _, h⟩
  | cls p =>
    intro s caps k r h
    cases s with
    | nil => simp [reMatch] at h
    | cons c cs =>
      rw [reMatch] at h
      by_cases hp : p c
      · rw [if_pos hp] at h
        exact ⟨cs, caps, by simp, h⟩
      · rw [if_neg hp] at h; cases h
  | seq a b iha ihb =>
    intro s caps k r h
    rw [reMatch] at h
    obtain ⟨s1, c1, hl1, hk1⟩ := iha _ _ _ _ h
    obtain ⟨s2, c2, hl2, hk2⟩ := ihb _ _ _ _ hk1
    exact ⟨s2, c2, le_trans hl2 hl1, hk2⟩
  | opt a iha =>
    intro s caps k r h
    rw [reMatch] at h
    cases hm : reMatch a s caps k with
    | some v =>
      rw [hm] at h
      obtain ⟨s1, c1, hl1, hk1⟩ := iha _ _ _ _ hm
      cases h
      exact ⟨s1, c1, hl1, hk1⟩
    | none =>
      rw [hm] at h
      exact ⟨s, caps, le_refl _, h⟩
  | plusG p =>
    intro s caps k r h
    rw [reMatch] at h
    obtain ⟨i, _, hf⟩ := firstSome_eq_some h
    exact ⟨s.drop i, caps, by simp, hf⟩
  | plusL p =>
    intro s caps k r h
    rw [reMatch] at h
    obtain ⟨i, _, hf⟩ := firstSome_eq_some h
    exact ⟨s.drop i, caps, by simp, hf⟩
  | repG p lo hi =>
    intro s caps k r h
    rw [reMatch] at h
    obtain ⟨i, _, hf⟩ := firstSome_eq_some h
    exact ⟨s.drop i, caps, by simp, hf⟩
  | grp g a iha =>
    intro s caps k r h
    rw [reMatch] at h
    obtain ⟨s1, c1, hl1, hk1⟩ := iha _ _ _ _ h
    exact ⟨s1, c1 ++ [(g, s.take (s.length - s1.length))], hl1, hk1⟩

theorem plusG_inv {p : Char → Bool} {s : List Char} {caps : Caps} {k : K}
    {r : List Char × Caps} (h : reMatch (.plusG p) s caps k = some r) :
    ∃ i, 1 ≤ i ∧ i ≤ (s.takeWhile p).length ∧ k (s.drop i) caps = some r := by
  rw [reMatch] at h
  obtain ⟨i, hi, hf⟩ := firstSome_eq_some h
  exact ⟨i, (mem_descList.mp hi).1, (mem_descList.mp hi).2, hf⟩

theorem plusL_inv {p : Char → Bool} {s : List Char} {caps : Caps} {k : K}
    {r : List Char × Caps} (h : reMatch (.plusL p) s caps k = some r) :
    ∃ i, 1 ≤ i ∧ i ≤ (s.takeWhile p).length ∧ k (s.drop i) caps = some r := by
  rw [reMatch] at h
  obtain ⟨i, hi, hf⟩ := firstSome_eq_some h
  exact ⟨i, (mem_ascList.mp hi).1, (mem_ascList.mp hi).2, hf⟩

theorem repG_inv {p : Char → Bool} {lo hi : Nat} {s : List Char} {caps : Caps} {k : K}
    {r : List Char × Caps} (h : reMatch (.repG p lo hi) s caps k = some r) :
    ∃ i, lo ≤ i ∧ i ≤ (s.takeWhile p).length ∧ k (s.drop i) caps = some r := by
  rw [reMatch] at h
  obtain ⟨i, hi, hf⟩ := firstSome_eq_some h
  exact ⟨i, (of_mem_repList hi).1, (of_mem_repList hi).2.2.1, hf⟩

theorem cls_inv {p : Char → Bool} {s : List Char} {caps : Caps} {k : K}
    {r : List Char × Caps} (h : reMatch (.cls p) s caps k = some r) :
    ∃ c cs, s = c :: cs ∧ p c = true ∧ k cs caps = some r := by
  cases s with
  | nil => simp [reMatch] at h
  | cons c cs =>
    rw [reMatch] at h
    by_cases hp : p c
    · rw [if_pos hp] at h
      exact ⟨c, cs, rfl, hp, h⟩
    · rw [if_neg hp] at h; cases h

theorem opt_inv {a : RE} {s : List Char} {caps : Caps} {k : K}
    {r : List Char × Caps} (h : reMatch (.opt a) s caps k = some r) :
    reMatch a s caps k = some r ∨ k s caps = some r := by
  rw [reMatch] at h
  cases hm : reMatch a s caps k with
  | some v => rw [hm] at h; exact Or.inl h
  | none => rw [hm] at h; exact Or.inr h

theorem plusL_isSome {p : Char → Bool} {s : List Char} {caps : Caps} {k : K} {i : Nat}
    (h1 : 1 ≤ i) (h2 : i ≤ (s.takeWhile p).length)
    (hk : (k (s.drop i) caps).isSome) : (reMatch (.plusL p) s caps k).isSome := by
  rw [reMatch]
  exact firstSome_isSome_of_mem (mem_ascList.mpr ⟨h1, h2⟩) hk

end Webhook

namespace Webhook

/-! ### Facts about `matchAt`, `search` and `finditer` -/

theorem matchAt_bounds {pat : RE} {chars : List Char} {i stop : Nat} {caps : Caps}
    (h : matchAt pat chars i = some (stop, caps)) :
    stop ≤ chars.length ∧ (i ≤ chars.length → i ≤ stop) := by
  rw [matchAt] at h
  cases hm : reMatch pat (chars.drop i) [] (fun rest caps => some (rest, caps)) with
  | none => rw [hm] at h; cases h
  | some v =>
    obtain ⟨rest, caps0⟩ := v
    rw [hm] at h
    obtain ⟨s', c', hlen, hk⟩ := reMatch_consume _ _ _ _ _ hm
    have hk' : s' = rest ∧ c' = caps0 := by
      have := hk
      simp only [Option.some.injEq, Prod.mk.injEq] at this
      exact this
    obtain ⟨rfl, rfl⟩ := hk'
    have hstop : stop = chars.length - s'.length := by
      simp only [Option.some.injEq, Prod.mk.injEq] at h
      exact h.1.symm
    have hlen2 : s'.length ≤ chars.length - i := by
      simpa using le_trans hlen (by simp)
    constructor
    · omega
    · intro hi; omega

theorem searchAux_some {pat : RE} {chars : List Char} {fuel pos : Nat} {m : MatchRes}
    (h : searchAux pat chars fuel pos = some m) :
    pos ≤ m.mstart ∧ m.mstart < pos + fuel ∧
      matchAt pat chars m.mstart = some (m.mstop, m.caps) := by
  induction fuel generalizing pos with
  | zero => simp [searchAux] at h
  | succ f ih =>
    rw [searchAux] at h
    cases hm : matchAt pat chars pos with
    | some v =>
      obtain ⟨stop, caps⟩ := v
      rw [hm] at h
      cases h
      refine ⟨le_refl _, ?_, hm⟩
      show pos < pos + (f + 1)
      omega
    | none =>
      rw [hm] at h
      obtain ⟨h1, h2, h3⟩ := ih h
      exact ⟨by omega, by omega, h3⟩

theorem search_some {pat : RE} {chars : List Char} {pos : Nat} {m : MatchRes}
    (h : search pat chars pos = some m) :
    pos ≤ m.mstart ∧ m.mstart ≤ chars.length ∧
      matchAt pat chars m.mstart = some (m.mstop, m.caps) := by
  rw [search] at h
  obtain ⟨h1, h2, h3⟩ := searchAux_some h
  by_cases hp : pos ≤ chars.length + 1
  · exact ⟨h1, by omega, h3⟩
  · exfalso
    have : chars.length + 1 - pos = 0 := by omega
    rw [this] at h
    simp [searchAux] at h

theorem searchAux_none_forall {pat : RE} {chars : List Char} {fuel pos : Nat}
    (h : searchAux pat chars fuel pos = none) :
    ∀ j, pos ≤ j → j < pos + fuel → matchAt pat chars j = none := by
  induction fuel generalizing pos with
  | zero => intro j h1 h2; omega
  | succ f ih =>
    rw [searchAux] at h
    cases hm : matchAt pat chars pos with
    | some v => obtain ⟨stop, caps⟩ := v; rw [hm] at h; cases h
    | none =>
      rw [hm] at h
      intro j h1 h2
      rcases Nat.eq_or_lt_of_le h1 with rfl | hlt
      · exact hm
      · exact ih h j hlt (by omega)

theorem searchAux_none_of_forall {pat : RE} {chars : List Char} {fuel pos : Nat}
    (h : ∀ j, pos ≤ j → j < pos + fuel → matchAt pat chars j = none) :
    searchAux pat chars fuel pos = none := by
  induction fuel generalizing pos with
  | zero => rfl
  | succ f ih =>
    rw [searchAux]
    rw [h pos (le_refl _) (by omega)]
    exact ih (fun j h1 h2 => h j (by omega) (by omega))

theorem finditer_eq_nil_iff {pat : RE} {chars : List Char} :
    finditer pat chars = [] ↔ ∀ j, j ≤ chars.length → matchAt pat chars j = none := by
  constructor
  · intro h j hj
    rw [finditer, findAux] at h
    cases hs : search pat chars 0 with
    | some m => rw [hs] at h; cases h
    | none =>
      rw [search] at hs
      exact searchAux_none_forall hs j (by omega) (by omega)
  · intro h
    rw [finditer, findAux]
    have hs : search pat chars 0 = none := by
      rw [search]
      exact searchAux_none_of_forall (fun j h1 h2 => h j (by omega))
    rw [hs]

theorem findAux_mem_matchAt {pat : RE} {chars : List Char} {m : MatchRes} :
    ∀ {fuel pos : Nat}, m ∈ findAux pat chars fuel pos →
      matchAt pat chars m.mstart = some (m.mstop, m.caps) ∧ m.mstart ≤ chars.length := by
  intro fuel
  induction fuel with
  | zero => intro pos h; simp [findAux] at h
  | succ f ih =>
    intro pos h
    rw [findAux] at h
    cases hs : search pat chars pos with
    | none => rw [hs] at h; simp at h
    | some m0 =>
      rw [hs] at h
      rcases List.mem_cons.mp h with rfl | hmem
      · obtain ⟨_, h2, h3⟩ := search_some hs
        exact ⟨h3, h2⟩
      · exact ih hmem

theorem finditer_mem_matchAt {pat : RE} {chars : List Char} {m : MatchRes}
    (h : m ∈ finditer pat chars) :
    matchAt pat chars m.mstart = some (m.mstop, m.caps) ∧ m.mstart ≤ chars.length :=
  findAux_mem_matchAt h

theorem findAux_sorted (pat : RE) (chars : List Char) :
    ∀ (fuel pos : Nat),
      (∀ m ∈ findAux pat chars fuel pos, pos ≤ m.mstart) ∧
      List.Chain' (fun a b => a.mstart < b.mstart) (findAux pat chars fuel pos) := by
  intro fuel
  induction fuel with
  | zero => intro pos; simp [findAux]
  | succ f ih =>
    intro pos
    rw [findAux]
    cases hs : search pat chars pos with
    | none => simp
    | some m =>
      obtain ⟨h1, h2, h3⟩ := search_some hs
      have hms : m.mstart ≤ m.mstop := (matchAt_bounds h3).2 h2
      have hpos : m.mstart < (if m.mstart < m.mstop then m.mstop else m.mstop + 1) := by
        by_cases hlt : m.mstart < m.mstop
        · rw [if_pos hlt]; exact hlt
        · rw [if_neg hlt]; omega
      set pos2 := if m.mstart < m.mstop then m.mstop else m.mstop + 1 with hpos2
      constructor
      · intro x hx
        rcases List.mem_cons.mp hx with rfl | hmem
        · exact h1
        · have := (ih pos2).1 x hmem
          omega
      · rw [List.chain'_cons']
        refine ⟨?_, (ih pos2).2⟩
        intro y hy
        have hy' := (ih pos2).1 y (List.mem_of_mem_head? hy)
        omega

theorem finditer_sorted (pat : RE) (chars : List Char) :
    List.Chain' (· < ·) ((finditer pat chars).map MatchRes.mstart) := by
  rw [List.chain'_map]
  exact (findAux_sorted pat chars _ 0).2

end Webhook

namespace Webhook

/-! ### Idempotence of the name normalisation -/

theorem collapseWS_cons_of_neg {d : Char} {cs : List Char} (hd : isWSC d = false) :
    collapseWS (d :: cs) = d :: collapseWS cs := by
  cases cs with
  | nil => simp [collapseWS, hd]
  | cons e es => simp [collapseWS, hd]

theorem sepWS_collapseWS (l : List Char) : SepWS (collapseWS l) := by
  induction l with
  | nil => exact ⟨by simp [collapseWS], by simp [collapseWS]⟩
  | cons c cs ih =>
    cases cs with
    | nil =>
      by_cases hc : isWSC c
      · rw [collapseWS, if_pos hc]
        exact ⟨by simp, by intro x hx _; simp at hx; simp [hx]⟩
      · rw [collapseWS, if_neg hc]
        constructor
        · simp
        · intro x hx hw
          simp at hx
          subst hx
          simp [hw] at hc
    | cons d ds =>
      by_cases hc : isWSC c
      · by_cases hd : isWSC d
        · rw [collapseWS, if_pos hc, if_pos hd]
          exact ih
        · rw [collapseWS, if_pos hc, if_neg hd]
          obtain ⟨ih1, ih2⟩ := ih
          constructor
          · rw [collapseWS_cons_of_neg (by simpa using hd)] at ih1 ⊢
            rw [List.chain'_cons]
            refine ⟨?_, ih1⟩
            intro ⟨_, hwd⟩
            exact hd (by simp [hwd])
          · intro x hx hw
            rcases List.mem_cons.mp hx with rfl | hmem
            · rfl
            · exact ih2 x hmem hw
      · rw [collapseWS, if_neg hc]
        obtain ⟨ih1, ih2⟩ := ih
        constructor
        · rw [List.chain'_cons']
          refine ⟨?_, ih1⟩
          intro y _
          intro ⟨hwc, _⟩
          exact hc (by simp [hwc])
        · intro x hx hw
          rcases List.mem_cons.mp hx with rfl | hmem
          · exact absurd (by simp [hw]) hc
          · exact ih2 x hmem hw

theorem collapseWS_of_sepWS {l : List Char} (h : SepWS l) : collapseWS l = l := by
  obtain ⟨h1, h2⟩ := h
  induction l with
  | nil => rfl
  | cons c cs ih =>
    cases cs with
    | nil =>
      by_cases hc : isWSC c
      · rw [collapseWS, if_pos hc, h2 c (by simp) hc]
      · rw [collapseWS, if_neg hc]
    | cons d ds =>
      by_cases hc : isWSC c
      · have hd : isWSC d = false := by
          rcases List.chain'_cons.mp h1 with ⟨hcd, _⟩
          by_contra hdd
          exact hcd ⟨hc, by simpa using hdd⟩
        rw [collapseWS, if_pos hc, if_neg (by simp [hd])]
        rw [h2 c (by simp) hc]
        congr 1
        exact ih (List.chain'_cons.mp h1).2 (fun x hx hw => h2 x (by simp [hx]) hw)
      · rw [collapseWS, if_neg hc]
        congr 1
        exact ih (List.Chain'.tail h1) (fun x hx hw => h2 x (by simp [hx]) hw)

theorem chain'_dropWhile {R : Char → Char → Prop} {p : Char → Bool} {l : List Char}
    (h : List.Chain' R l) : List.Chain' R (l.dropWhile p) := by
  induction l with
  | nil => simp
  | cons c cs ih =>
    rw [List.dropWhile_cons]
    by_cases hp : p c
    · rw [if_pos hp]
      exact ih (List.Chain'.tail h)
    · rw [if_neg hp]
      exact h

theorem sepWS_dropWhile {p : Char → Bool} {l : List Char} (h : SepWS l) :
    SepWS (l.dropWhile p) :=
  ⟨chain'_dropWhile h.1,
   fun c hc hw => h.2 c ((List.dropWhile_sublist p).subset hc) hw⟩

theorem trimRight_cons_struct (c : Char) (cs : List Char) :
    trimRight (c :: cs) = [] ∨ ∃ r, trimRight (c :: cs) = c :: r := by
  rw [trimRight]
  cases h : trimRight cs with
  | nil =>
    by_cases hc : isWSC c
    · rw [if_pos hc]; exact Or.inl rfl
    · rw [if_neg hc]; exact Or.inr ⟨[], rfl⟩
  | cons x xs => exact Or.inr ⟨x :: xs, rfl⟩

theorem mem_trimRight {x : Char} {l : List Char} (h : x ∈ trimRight l) : x ∈ l := by
  induction l with
  | nil => simp [trimRight] at h
  | cons c cs ih =>
    rw [trimRight] at h
    cases ht : trimRight cs with
    | nil =>
      rw [ht] at h
      by_cases hc : isWSC c
      · rw [if_pos hc] at h; simp at h
      · rw [if_neg hc] at h
        simp at h
        simp [h]
    | cons y ys =>
      rw [ht] at h
      rcases List.mem_cons.mp h with rfl | hmem
      · simp
      · exact List.mem_cons_of_mem _ (ih (ht ▸ hmem))

theorem chain'_trimRight {R : Char → Char → Prop} {l : List Char}
    (h : List.Chain' R l) : List.Chain' R (trimRight l) := by
  induction l with
  | nil => simp [trimRight]
  | cons c cs ih =>
    rw [trimRight]
    cases ht : trimRight cs with
    | nil =>
      by_cases hc : isWSC c
      · rw [if_pos hc]; simp
      · rw [if_neg hc]; simp
    | cons x xs =>
      cases cs with
      | nil => simp [trimRight] at ht
      | cons d ds =>
        rcases trimRight_cons_struct d ds with hnil | ⟨r, hr⟩
        · rw [ht] at hnil; cases hnil
        · rw [ht] at hr
          obtain ⟨rfl, hxs⟩ : d = x ∧ r = xs := by
            have := hr
            simp at this
            exact ⟨this.1.symm, this.2.symm⟩
          rw [List.chain'_cons]
          refine ⟨(List.chain'_cons.mp h).1, ?_⟩
          rw [← ht]
          exact ih (List.chain'_cons.mp h).2

theorem sepWS_trimRight {l : List Char} (h : SepWS l) : SepWS (trimRight l) :=
  ⟨chain'_trimRight h.1, fun c hc hw => h.2 c (mem_trimRight hc) hw⟩

theorem trimRight_idem (l : List Char) : trimRight (trimRight l) = trimRight l := by
  induction l with
  | nil => rfl
  | cons c cs ih =>
    rw [trimRight]
    cases ht : trimRight cs with
    | nil =>
      by_cases hc : isWSC c
      · rw [if_pos hc]; rfl
      · rw [if_neg hc]
        rw [trimRight]
        simp [trimRight, hc]
    | cons x xs =>
      have hxx : trimRight (x :: xs) = x :: xs := by
        rw [← ht, ih]
      rw [trimRight, hxx]

theorem dropWhile_trimRight_dropWhile (p : Char → Bool) (l : List Char) :
    (trimRight (l.dropWhile p)).dropWhile p = trimRight (l.dropWhile p) := by
  cases hd : l.dropWhile p with
  | nil => rfl
  | cons c cs =>
    have hpc : p c = false := by
      have : l.dropWhile p ≠ [] := by simp [hd]
      have := List.head?_dropWhile_not p l
      rw [hd] at this
      simpa using this
    rcases trimRight_cons_struct c cs with hnil | ⟨r, hr⟩
    · rw [hnil]; rfl
    · rw [hr, List.dropWhile_cons, if_neg (by simp [hpc])]

theorem normName_idem_chars (l : List Char) :
    trimRight ((collapseWS (trimRight ((collapseWS l).dropWhile isWSC))).dropWhile isWSC) =
      trimRight ((collapseWS l).dropWhile isWSC) := by
  have hsep : SepWS (trimRight ((collapseWS l).dropWhile isWSC)) :=
    sepWS_trimRight (sepWS_dropWhile (sepWS_collapseWS l))
  rw [collapseWS_of_sepWS hsep]
  rw [dropWhile_trimRight_dropWhile]
  rw [trimRight_idem]

theorem normName_idem (s : String) : normName (normName s) = normName s :=
  congrArg String.mk (normName_idem_chars s.data)

end Webhook

namespace Webhook

/-! ### Shape of the numeric captures and success of `float` -/

theorem pyFloat_ok_digits {a : List Char} (ha1 : a ≠ [])
    (ha2 : ∀ c ∈ a, isDigitC c = true) :
    pyFloat (String.mk a) = .ok ((digitsVal a : ℚ)) := by
  have htake : a.takeWhile isDigitC = a := by
    conv_lhs => rw [← List.append_nil a]
    rw [takeWhile_append_of_all ha2]
    simp
  have hdrop : a.dropWhile isDigitC = [] := by
    conv_lhs => rw [← List.append_nil a]
    rw [dropWhile_append_of_all ha2]
    rfl
  have hae : a.isEmpty = false := by
    cases a with
    | nil => exact absurd rfl ha1
    | cons c t => rfl
  simp only [pyFloat]
  rw [hdrop, htake, hae]
  rfl

theorem pyFloat_ok_frac {a f : List Char} (ha1 : a ≠ [])
    (ha2 : ∀ c ∈ a, isDigitC c = true) (_hf1 : f ≠ [])
    (hf2 : ∀ c ∈ f, isDigitC c = true) :
    pyFloat (String.mk (a ++ '.' :: f)) =
      .ok ((digitsVal a : ℚ) + (digitsVal f : ℚ) / (10 : ℚ) ^ f.length) := by
  have hdrop : (a ++ '.' :: f).dropWhile isDigitC = '.' :: f := by
    rw [dropWhile_append_of_all ha2, List.dropWhile_cons, if_neg (by decide)]
  have htake : (a ++ '.' :: f).takeWhile isDigitC = a := by
    rw [takeWhile_append_of_all ha2, List.takeWhile_cons_of_neg (by decide)]
    simp
  have hae : a.isEmpty = false := by
    cases a with
    | nil => exact absurd rfl ha1
    | cons c t => rfl
  have hfall : f.all isDigitC = true := List.all_eq_true.mpr hf2
  simp only [pyFloat]
  rw [hdrop, htake, hae]
  simp [hfall]

theorem pyFloat_of_numShape {w : List Char} (h : NumShape w) :
    ∃ q, pyFloat (String.mk w) = .ok q ∧ 0 ≤ q := by
  obtain ⟨a, b, rfl, ha1, ha2, hb⟩ := h
  rcases hb with rfl | ⟨f, rfl, hf1, hf2⟩
  · rw [List.append_nil]
    exact ⟨_, pyFloat_ok_digits ha1 ha2, by positivity⟩
  · exact ⟨_, pyFloat_ok_frac ha1 ha2 hf1 hf2, by positivity⟩

/-! ### The captures of a successful match of each pattern -/

theorem numGroup_inv {g : String} {s : List Char} {caps : Caps} {k : K}
    {r : List Char × Caps} (h : reMatch (numGroup g) s caps k = some r) :
    ∃ m, 1 ≤ m ∧ m ≤ s.length ∧ NumShape (s.take m) ∧
      k (s.drop m) (caps ++ [(g, s.take m)]) = some r := by
  have h1 : reMatch (.plusG isDigitC) s caps
      (fun s1 c1 => reMatch fracOpt s1 c1
        (fun s2 c2 => k s2 (c2 ++ [(g, s.take (s.length - s2.length))]))) = some r := h
  obtain ⟨i, hi1, hi2, hk1⟩ := plusG_inv h1
  have hiS : i ≤ s.length := le_trans hi2 (length_takeWhile_le_len _ _)
  rcases opt_inv hk1 with hfrac | hskip
  · have h2 : reMatch (.cls (fun c => c = '.')) (s.drop i) caps
        (fun s3 c3 => reMatch (.plusG isDigitC) s3 c3
          (fun s2 c2 => k s2 (c2 ++ [(g, s.take (s.length - s2.length))]))) = some r := hfrac
    obtain ⟨c, cs, hsplit, hcdot, hk2⟩ := cls_inv h2
    have hcdot' : c = '.' := of_decide_eq_true hcdot
    subst hcdot'
    obtain ⟨j, hj1, hj2, hk3⟩ := plusG_inv hk2
    have hilt : i < s.length :=
      List.length_lt_of_drop_ne_nil (by rw [hsplit]; simp)
    have hcs : cs = s.drop (i + 1) := by
      have ht : (s.drop i).tail = s.drop (i + 1) := List.tail_drop s i
      rw [hsplit] at ht
      exact ht
    have hjS : j ≤ cs.length := le_trans hj2 (length_takeWhile_le_len _ _)
    have hcslen : cs.length = s.length - (i + 1) := by rw [hcs, List.length_drop]
    have hmS : i + 1 + j ≤ s.length := by omega
    have hdropm : cs.drop j = s.drop (i + 1 + j) := by
      rw [hcs, List.drop_drop]
    have hcapture : s.take (s.length - (cs.drop j).length) = s.take (i + 1 + j) := by
      rw [hdropm, List.length_drop, Nat.sub_sub_self hmS]
    have hdecomp : s = s.take i ++ '.' :: cs := by
      conv_lhs => rw [← List.take_append_drop i s]
      rw [hsplit]
    have htakei : (s.take i).length = i := by
      rw [List.length_take]
      omega
    have htakem : s.take (i + 1 + j) = s.take i ++ '.' :: cs.take j := by
      conv_lhs => rw [hdecomp]
      rw [List.take_append_eq_append_take, htakei]
      have h5 : List.take (i + 1 + j) (s.take i) = s.take i := by
        rw [List.take_take]
        congr 1
        omega
      have h6 : i + 1 + j - i = j + 1 := by omega
      rw [h5, h6, List.take_succ_cons]
    refine ⟨i + 1 + j, by omega, hmS, ?_, ?_⟩
    · rw [htakem]
      exact ⟨s.take i, '.' :: cs.take j, rfl,
        take_ne_nil_of_pos hi1 (by omega),
        List.all_eq_true.mp (all_take_of_le_takeWhile hi2),
        Or.inr ⟨cs.take j, rfl,
          take_ne_nil_of_pos hj1 hjS,
          List.all_eq_true.mp (all_take_of_le_takeWhile hj2)⟩⟩
    · rw [← hdropm, ← hcapture]
      exact hk3
  · have hk2 : k (s.drop i) (caps ++ [(g, s.take (s.length - (s.drop i).length))]) = some r := hskip
    have hcapture : s.take (s.length - (s.drop i).length) = s.take i := by
      rw [List.length_drop, Nat.sub_sub_self hiS]
    refine ⟨i, hi1, hiS, ?_, ?_⟩
    · exact ⟨s.take i, [], (List.append_nil _).symm,
        take_ne_nil_of_pos hi1 hiS,
        List.all_eq_true.mp (all_take_of_le_takeWhile hi2), Or.inl rfl⟩
    · rw [← hcapture]
      exact hk2

end Webhook

namespace Webhook

theorem numTriple_inv {s : List Char} {caps : Caps} {k : K} {r : List Char × Caps}
    (h : reMatch numTriple s caps k = some r) :
    ∃ wq wr wa rest, NumShape wq ∧ NumShape wr ∧ NumShape wa ∧
      k rest (caps ++ [("qty", wq), ("rate", wr), ("amount", wa)]) = some r := by
  have h1 : reMatch (numGroup "qty") s caps
      (fun s1 c1 => reMatch (.seq wsPlus (.seq (numGroup "rate") (.seq wsPlus (numGroup "amount"))))
        s1 c1 k) = some r := h
  obtain ⟨m1, _, _, hq, hk1⟩ := numGroup_inv h1
  have h2 : reMatch (.plusG isWSC) (s.drop m1) (caps ++ [("qty", s.take m1)])
      (fun s2 c2 => reMatch (.seq (numGroup "rate") (.seq wsPlus (numGroup "amount"))) s2 c2 k) =
      some r := hk1
  obtain ⟨i1, _, _, hk2⟩ := plusG_inv h2
  have h3 : reMatch (numGroup "rate") ((s.drop m1).drop i1) (caps ++ [("qty", s.take m1)])
      (fun s3 c3 => reMatch (.seq wsPlus (numGroup "amount")) s3 c3 k) = some r := hk2
  obtain ⟨m2, _, _, hr2, hk3⟩ := numGroup_inv h3
  have h4 : reMatch (.plusG isWSC) (((s.drop m1).drop i1).drop m2)
      ((caps ++ [("qty", s.take m1)]) ++ [("rate", ((s.drop m1).drop i1).take m2)])
      (fun s4 c4 => reMatch (numGroup "amount") s4 c4 k) = some r := hk3
  obtain ⟨i2, _, _, hk4⟩ := plusG_inv h4
  have h5 : reMatch (numGroup "amount") ((((s.drop m1).drop i1).drop m2).drop i2)
      ((caps ++ [("qty", s.take m1)]) ++ [("rate", ((s.drop m1).drop i1).take m2)]) k = some r := hk4
  obtain ⟨m3, _, _, ha3, hk5⟩ := numGroup_inv h5
  refine ⟨s.take m1, ((s.drop m1).drop i1).take m2,
    ((((s.drop m1).drop i1).drop m2).drop i2).take m3,
    ((((s.drop m1).drop i1).drop m2).drop i2).drop m3, hq, hr2, ha3, ?_⟩
  have hfix :
      ((caps ++ [("qty", s.take m1)]) ++ [("rate", ((s.drop m1).drop i1).take m2)]) ++
        [("amount", ((((s.drop m1).drop i1).drop m2).drop i2).take m3)] =
      caps ++ [("qty", s.take m1), ("rate", ((s.drop m1).drop i1).take m2),
        ("amount", ((((s.drop m1).drop i1).drop m2).drop i2).take m3)] := by
    simp
  rw [hfix] at hk5
  exact hk5

theorem coreRE_inv {p : Char → Bool} {s : List Char} {k : K} {r : List Char × Caps}
    (h : reMatch (coreRE p) s [] k = some r) :
    ∃ wn wq wr wa rest, NumShape wq ∧ NumShape wr ∧ NumShape wa ∧
      k rest [("name", wn), ("qty", wq), ("rate", wr), ("amount", wa)] = some r := by
  have h1 : reMatch (.plusL p) s []
      (fun s1 c1 => reMatch (.seq wsPlus numTriple) s1
        (c1 ++ [("name", s.take (s.length - s1.length))]) k) = some r := h
  obtain ⟨i, _, _, hk1⟩ := plusL_inv h1
  have h2 : reMatch (.plusG isWSC) (s.drop i)
      ([] ++ [("name", s.take (s.length - (s.drop i).length))])
      (fun s2 c2 => reMatch numTriple s2 c2 k) = some r := hk1
  obtain ⟨i2, _, _, hk2⟩ := plusG_inv h2
  obtain ⟨wq, wr, wa, rest, hq, hr2, ha2, hk3⟩ := numTriple_inv hk2
  refine ⟨s.take (s.length - (s.drop i).length), wq, wr, wa, rest, hq, hr2, ha2, ?_⟩
  have hfix : (([] : Caps) ++ [("name", s.take (s.length - (s.drop i).length))]) ++
      [("qty", wq), ("rate", wr), ("amount", wa)] =
      [("name", s.take (s.length - (s.drop i).length)), ("qty", wq), ("rate", wr),
        ("amount", wa)] := by
    simp
  rw [hfix] at hk3
  exact hk3

theorem k0_inv {rest0 rest : List Char} {caps0 caps1 : Caps}
    (h : (fun (rest : List Char) (caps : Caps) => some (rest, caps)) rest caps1 =
      some (rest0, caps0)) : caps1 = caps0 := by
  simp only [Option.some.injEq, Prod.mk.injEq] at h
  exact h.2

theorem matchAt_caps_core {p : Char → Bool} {chars : List Char} {i stop : Nat} {caps : Caps}
    (h : matchAt (coreRE p) chars i = some (stop, caps)) :
    ∃ wn wq wr wa, caps = [("name", wn), ("qty", wq), ("rate", wr), ("amount", wa)] ∧
      NumShape wq ∧ NumShape wr ∧ NumShape wa := by
  rw [matchAt] at h
  cases hm : reMatch (coreRE p) (chars.drop i) [] (fun rest caps => some (rest, caps)) with
  | none => rw [hm] at h; cases h
  | some v =>
    obtain ⟨rest0, caps0⟩ := v
    rw [hm] at h
    have hcaps : caps0 = caps := by
      simp only [Option.some.injEq, Prod.mk.injEq] at h
      exact h.2
    obtain ⟨wn, wq, wr, wa, rest, hq, hr2, ha2, hk⟩ := coreRE_inv hm
    exact ⟨wn, wq, wr, wa, by rw [← hcaps, ← k0_inv hk], hq, hr2, ha2⟩

theorem matchAt_caps_hosp {chars : List Char} {i stop : Nat} {caps : Caps}
    (h : matchAt hospitalPattern chars i = some (stop, caps)) :
    ∃ wn wq wr wa, caps = [("name", wn), ("qty", wq), ("rate", wr), ("amount", wa)] ∧
      NumShape wq ∧ NumShape wr ∧ NumShape wa :=
  matchAt_caps_core (p := hospNameChar) h

theorem matchAt_caps_pharm {chars : List Char} {i stop : Nat} {caps : Caps}
    (h : matchAt pharmacyPattern chars i = some (stop, caps)) :
    ∃ wn wq wr wa, caps = [("name", wn), ("qty", wq), ("rate", wr), ("amount", wa)] ∧
      NumShape wq ∧ NumShape wr ∧ NumShape wa := by
  rw [matchAt] at h
  cases hm : reMatch pharmacyPattern (chars.drop i) [] (fun rest caps => some (rest, caps)) with
  | none => rw [hm] at h; cases h
  | some v =>
    obtain ⟨rest0, caps0⟩ := v
    rw [hm] at h
    have hcaps : caps0 = caps := by
      simp only [Option.some.injEq, Prod.mk.injEq] at h
      exact h.2
    have hm2 : reMatch serialOpt (chars.drop i) []
        (fun s1 c1 => reMatch (coreRE pharmNameChar) s1 c1
          (fun rest caps => some (rest, caps))) = some (rest0, caps0) := hm
    have hcore : ∃ s2, reMatch (coreRE pharmNameChar) s2 []
        (fun rest caps => some (rest, caps)) = some (rest0, caps0) := by
      rcases opt_inv hm2 with hser | hskip
      · have hser2 : reMatch (.plusG isDigitC) (chars.drop i) []
            (fun s1 c1 => reMatch (.plusG isWSC) s1 c1
              (fun s2 c2 => reMatch (coreRE pharmNameChar) s2 c2
                (fun rest caps => some (rest, caps)))) = some (rest0, caps0) := hser
        obtain ⟨i1, _, _, hk1⟩ := plusG_inv hser2
        obtain ⟨i2, _, _, hk2⟩ := plusG_inv hk1
        exact ⟨_, hk2⟩
      · exact ⟨_, hskip⟩
    obtain ⟨s2, hs2⟩ := hcore
    obtain ⟨wn, wq, wr, wa, rest, hq, hr2, ha2, hk⟩ := coreRE_inv hs2
    exact ⟨wn, wq, wr, wa, by rw [← hcaps, ← k0_inv hk], hq, hr2, ha2⟩

theorem datePart_inv {s : List Char} {caps : Caps} {k : K} {r : List Char × Caps}
    (h : reMatch datePart s caps k = some r) :
    ∃ s', k s' caps = some r := by
  have h1 : reMatch (.repG isDigitC 1 2) s caps
      (fun s1 c1 => reMatch (.seq (.cls (fun c => c = '/'))
        (.seq (.repG isDigitC 1 2) (.seq (.cls (fun c => c = '/')) (.repG isDigitC 2 4))))
        s1 c1 k) = some r := h
  obtain ⟨d1, _, _, hk1⟩ := repG_inv h1
  have h2 : reMatch (.cls (fun c => c = '/')) (s.drop d1) caps
      (fun s2 c2 => reMatch (.seq (.repG isDigitC 1 2)
        (.seq (.cls (fun c => c = '/')) (.repG isDigitC 2 4))) s2 c2 k) = some r := hk1
  obtain ⟨c1, cs1, _, _, hk2⟩ := cls_inv h2
  have h3 : reMatch (.repG isDigitC 1 2) cs1 caps
      (fun s3 c3 => reMatch (.seq (.cls (fun c => c = '/')) (.repG isDigitC 2 4)) s3 c3 k) =
      some r := hk2
  obtain ⟨d2, _, _, hk3⟩ := repG_inv h3
  have h4 : reMatch (.cls (fun c => c = '/')) (cs1.drop d2) caps
      (fun s4 c4 => reMatch (.repG isDigitC 2 4) s4 c4 k) = some r := hk3
  obtain ⟨c2, cs2, _, _, hk4⟩ := cls_inv h4
  obtain ⟨d3, _, _, hk5⟩ := repG_inv hk4
  exact ⟨cs2.drop d3, hk5⟩

theorem matchAt_caps_invg {chars : List Char} {i stop : Nat} {caps : Caps}
    (h : matchAt investigationPattern chars i = some (stop, caps)) :
    ∃ wn wq wr wa, caps = [("name", wn), ("qty", wq), ("rate", wr), ("amount", wa)] ∧
      NumShape wq ∧ NumShape wr ∧ NumShape wa := by
  rw [matchAt] at h
  cases hm : reMatch investigationPattern (chars.drop i) [] (fun rest caps => some (rest, caps)) with
  | none => rw [hm] at h; cases h
  | some v =>
    obtain ⟨rest0, caps0⟩ := v
    rw [hm] at h
    have hcaps : caps0 = caps := by
      simp only [Option.some.injEq, Prod.mk.injEq] at h
      exact h.2
    set s : List Char := chars.drop i with hs
    have hm2 : reMatch (.plusL pharmNameChar) s []
        (fun s1 c1 => reMatch (.seq wsPlus (.seq datePart (.seq wsPlus numTriple))) s1
          (c1 ++ [("name", s.take (s.length - s1.length))])
          (fun rest caps => some (rest, caps))) = some (rest0, caps0) := hm
    obtain ⟨i1, _, _, hk1⟩ := plusL_inv hm2
    have h3 : reMatch (.plusG isWSC) (s.drop i1)
        ([] ++ [("name", s.take (s.length - (s.drop i1).length))])
        (fun s2 c2 => reMatch (.seq datePart (.seq wsPlus numTriple)) s2 c2
          (fun rest caps => some (rest, caps))) = some (rest0, caps0) := hk1
    obtain ⟨i2, _, _, hk2⟩ := plusG_inv h3
    set capsN : Caps := [] ++ [("name", s.take (s.length - (s.drop i1).length))] with hcapsN
    have h4 : reMatch datePart ((s.drop i1).drop i2) capsN
        (fun s4 c4 => reMatch (.seq wsPlus numTriple) s4 c4
          (fun rest caps => some (rest, caps))) = some (rest0, caps0) := hk2
    obtain ⟨s4, hk7⟩ := datePart_inv h4
    have h5 : reMatch (.plusG isWSC) s4 capsN
        (fun s5 c5 => reMatch numTriple s5 c5
          (fun rest caps => some (rest, caps))) = some (rest0, caps0) := hk7
    obtain ⟨i3, _, _, hk8⟩ := plusG_inv h5
    obtain ⟨wq, wr, wa, rest, hq, hr2, ha2, hk9⟩ := numTriple_inv hk8
    have hfix : capsN ++ [("qty", wq), ("rate", wr), ("amount", wa)] =
        [("name", s.take (s.length - (s.drop i1).length)), ("qty", wq), ("rate", wr),
          ("amount", wa)] := by
      rw [hcapsN]
      simp
    rw [hfix] at hk9
    exact ⟨_, wq, wr, wa, by rw [← hcaps, ← k0_inv hk9], hq, hr2, ha2⟩

end Webhook

namespace Webhook

/-! ### Every produced item is well formed -/

theorem mkItem_ok {m : MatchRes} {wn wq wr wa : List Char}
    (hc : m.caps = [("name", wn), ("qty", wq), ("rate", wr), ("amount", wa)])
    (hq : NumShape wq) (hr : NumShape wr) (ha : NumShape wa) :
    ∃ it, mkItem m = .ok it ∧ GoodItem it := by
  obtain ⟨q, hq1, hq2⟩ := pyFloat_of_numShape hq
  obtain ⟨r2, hr1, hr2⟩ := pyFloat_of_numShape hr
  obtain ⟨a2, ha1, ha2⟩ := pyFloat_of_numShape ha
  have g1 : getCap [("name", wn), ("qty", wq), ("rate", wr), ("amount", wa)] "name" = wn := rfl
  have g2 : getCap [("name", wn), ("qty", wq), ("rate", wr), ("amount", wa)] "qty" = wq := rfl
  have g3 : getCap [("name", wn), ("qty", wq), ("rate", wr), ("amount", wa)] "rate" = wr := rfl
  have g4 : getCap [("name", wn), ("qty", wq), ("rate", wr), ("amount", wa)] "amount" = wa := rfl
  refine ⟨⟨normName (String.mk wn), q, r2, a2⟩, ?_, hq2, hr2, ha2, normName_idem _⟩
  simp only [mkItem, hc]
  rw [g1, g2, g3, g4, hq1, hr1, ha1]

theorem mapItems_ok {P : LineItem → Prop} {ms : List MatchRes}
    (h : ∀ m ∈ ms, ∃ it, mkItem m = .ok it ∧ P it) :
    ∃ l, mapItems ms = .ok l ∧ ∀ it ∈ l, P it := by
  induction ms with
  | nil => exact ⟨[], rfl, by simp⟩
  | cons m ms ih =>
    obtain ⟨it, hit, hp⟩ := h m (by simp)
    obtain ⟨l, hl, hpl⟩ := ih (fun x hx => h x (by simp [hx]))
    refine ⟨it :: l, ?_, ?_⟩
    · rw [mapItems, hit, hl]
    · intro x hx
      rcases List.mem_cons.mp hx with rfl | hmem
      · exact hp
      · exact hpl x hmem

theorem finditer_items_good (pat : RE) (chars : List Char)
    (hpat : ∀ i stop caps, matchAt pat chars i = some (stop, caps) →
      ∃ wn wq wr wa, caps = [("name", wn), ("qty", wq), ("rate", wr), ("amount", wa)] ∧
        NumShape wq ∧ NumShape wr ∧ NumShape wa) :
    ∃ l, mapItems (finditer pat chars) = .ok l ∧ ∀ it ∈ l, GoodItem it := by
  apply mapItems_ok
  intro m hm
  obtain ⟨hmat, _⟩ := finditer_mem_matchAt hm
  obtain ⟨wn, wq, wr, wa, hc, hq, hr, ha⟩ := hpat _ _ _ hmat
  exact mkItem_ok hc hq hr ha

theorem extractLoop_cons_ok {p : RE} {ps : List RE} {chars : List Char}
    {l1 l2 : List LineItem} (h1 : mapItems (finditer p chars) = .ok l1)
    (h2 : extractLoop ps chars = .ok l2) :
    extractLoop (p :: ps) chars = .ok (l1 ++ l2) := by
  rw [extractLoop, h1, h2]

theorem extract_decomp {text : String} {l1 l2 l3 : List LineItem}
    (h1 : mapItems (finditer pharmacyPattern text.data) = .ok l1)
    (h2 : mapItems (finditer hospitalPattern text.data) = .ok l2)
    (h3 : mapItems (finditer investigationPattern text.data) = .ok l3) :
    extract_bill_items_regex text = .ok (l1 ++ l2 ++ l3) := by
  have hb : extractLoop [] text.data = .ok [] := rfl
  have e3 := extractLoop_cons_ok (p := investigationPattern) h3 hb
  have e2 := extractLoop_cons_ok (p := hospitalPattern) h2 e3
  have e1 := extractLoop_cons_ok (p := pharmacyPattern) h1 e2
  rw [extract_bill_items_regex, patterns, e1]
  simp

theorem extract_ok (text : String) :
    ∃ items, extract_bill_items_regex text = .ok items ∧ ∀ it ∈ items, GoodItem it := by
  obtain ⟨l1, h1, g1⟩ := finditer_items_good pharmacyPattern text.data
    (fun i stop caps h => matchAt_caps_pharm h)
  obtain ⟨l2, h2, g2⟩ := finditer_items_good hospitalPattern text.data
    (fun i stop caps h => matchAt_caps_hosp h)
  obtain ⟨l3, h3, g3⟩ := finditer_items_good investigationPattern text.data
    (fun i stop caps h => matchAt_caps_invg h)
  refine ⟨l1 ++ l2 ++ l3, extract_decomp h1 h2 h3, ?_⟩
  intro it hit
  simp only [List.mem_append] at hit
  rcases hit with (hit | hit) | hit
  · exact g1 it hit
  · exact g2 it hit
  · exact g3 it hit

end Webhook

namespace Webhook

/-! ### A pharmacy match forces a hospital match -/

theorem hospNameChar_of_pharm {c : Char} (h : pharmNameChar c = true) :
    hospNameChar c = true := by
  rw [hospNameChar, h]
  rfl

theorem coreRE_mono {p q : Char → Bool} (hpq : ∀ c, p c = true → q c = true)
    {s : List Char} {caps : Caps} {k : K}
    (h : (reMatch (coreRE p) s caps k).isSome) :
    (reMatch (coreRE q) s caps k).isSome := by
  rw [Option.isSome_iff_exists] at h
  obtain ⟨r, hr⟩ := h
  have h1 : reMatch (.plusL p) s caps
      (fun s1 c1 => reMatch (.seq wsPlus numTriple) s1
        (c1 ++ [("name", s.take (s.length - s1.length))]) k) = some r := hr
  obtain ⟨i, hi1, hi2, hk⟩ := plusL_inv h1
  have h2 : (reMatch (coreRE q) s caps k) =
      reMatch (.plusL q) s caps
        (fun s1 c1 => reMatch (.seq wsPlus numTriple) s1
          (c1 ++ [("name", s.take (s.length - s1.length))]) k) := rfl
  rw [h2]
  exact plusL_isSome hi1 (le_trans hi2 (length_takeWhile_mono hpq s))
    (Option.isSome_iff_exists.mpr ⟨r, hk⟩)

theorem matchAt_pharm_to_hosp {chars : List Char} {i : Nat}
    (h : (matchAt pharmacyPattern chars i).isSome) :
    ∃ j, j < chars.length ∧ (matchAt hospitalPattern chars j).isSome := by
  rw [Option.isSome_iff_exists] at h
  obtain ⟨v, hv⟩ := h
  rw [matchAt] at hv
  cases hm : reMatch pharmacyPattern (chars.drop i) [] (fun rest caps => some (rest, caps)) with
  | none => rw [hm] at hv; cases hv
  | some w =>
    have hm2 : reMatch serialOpt (chars.drop i) []
        (fun s1 c1 => reMatch (coreRE pharmNameChar) s1 c1
          (fun rest caps => some (rest, caps))) = some w := hm
    have hcore : ∃ d, reMatch (coreRE pharmNameChar) ((chars.drop i).drop d) []
        (fun rest caps => some (rest, caps)) = some w := by
      rcases opt_inv hm2 with hser | hskip
      · have hser2 : reMatch (.plusG isDigitC) (chars.drop i) []
            (fun s1 c1 => reMatch (.plusG isWSC) s1 c1
              (fun s2 c2 => reMatch (coreRE pharmNameChar) s2 c2
                (fun rest caps => some (rest, caps)))) = some w := hser
        obtain ⟨i1, _, _, hk1⟩ := plusG_inv hser2
        obtain ⟨i2, _, _, hk2⟩ := plusG_inv hk1
        rw [List.drop_drop i2 i1 (chars.drop i)] at hk2
        exact ⟨i1 + i2, hk2⟩
      · exact ⟨0, hskip⟩
    obtain ⟨d, hd⟩ := hcore
    have hne : (chars.drop i).drop d ≠ [] := by
      have h1 : reMatch (.plusL pharmNameChar) ((chars.drop i).drop d) []
          (fun s1 c1 => reMatch (.seq wsPlus numTriple) s1
            (c1 ++ [("name", ((chars.drop i).drop d).take
              (((chars.drop i).drop d).length - s1.length))])
            (fun rest caps => some (rest, caps))) = some w := hd
      obtain ⟨a, ha1, ha2, _⟩ := plusL_inv h1
      intro hnil
      rw [hnil] at ha2
      simp at ha2
      omega
    have hmono : (reMatch (coreRE hospNameChar) ((chars.drop i).drop d) []
        (fun rest caps => some (rest, caps))).isSome :=
      coreRE_mono (fun c hc => hospNameChar_of_pharm hc)
        (Option.isSome_iff_exists.mpr ⟨w, hd⟩)
    have hdd : (chars.drop i).drop d = chars.drop (i + d) := List.drop_drop d i chars
    obtain ⟨u, hu⟩ := Option.isSome_iff_exists.mp hmono
    obtain ⟨rest1, caps1⟩ := u
    refine ⟨i + d, ?_, ?_⟩
    · exact List.length_lt_of_drop_ne_nil (by rw [← hdd]; exact hne)
    · have hcompute : matchAt hospitalPattern chars (i + d) =
          some (chars.length - rest1.length, caps1) := by
        rw [matchAt]
        rw [show chars.drop (i + d) = (chars.drop i).drop d from hdd.symm]
        rw [show reMatch hospitalPattern ((chars.drop i).drop d) []
          (fun rest caps => some (rest, caps)) = some (rest1, caps1) from hu]
      rw [hcompute]
      rfl

theorem finditer_pharm_to_hosp {chars : List Char}
    (h : finditer pharmacyPattern chars ≠ []) :
    finditer hospitalPattern chars ≠ [] := by
  have h1 : ¬ ∀ j, j ≤ chars.length → matchAt pharmacyPattern chars j = none :=
    fun hall => h (finditer_eq_nil_iff.mpr hall)
  push_neg at h1
  obtain ⟨j, hj, hne⟩ := h1
  have hs : (matchAt pharmacyPattern chars j).isSome := Option.ne_none_iff_isSome.mp hne
  obtain ⟨j2, hj2, hs2⟩ := matchAt_pharm_to_hosp hs
  intro hnil
  have hzero := finditer_eq_nil_iff.mp hnil j2 (le_of_lt hj2)
  rw [hzero] at hs2
  simp at hs2

end Webhook

namespace Webhook

/-! ### Characterisation of `allowed_file` and the webhook gate -/

theorem notDot_dot : notDot '.' = false := by decide

theorem dropWhile_ne_of_mem {l : List Char} (h : '.' ∈ l) :
    ∃ rest, l.dropWhile notDot = '.' :: rest := by
  induction l with
  | nil => simp at h
  | cons c cs ih =>
    by_cases hc : c = '.'
    · subst hc
      exact ⟨cs, by rw [List.dropWhile_cons, if_neg (by simp [notDot])]⟩
    · rw [List.dropWhile_cons, if_pos (by simp [notDot, hc])]
      rcases List.mem_cons.mp h with heq | hmem
      · exact absurd heq.symm hc
      · exact ih hmem

theorem afterLastDot_spec {l : List Char} (h : '.' ∈ l) :
    ∃ base, l = base ++ '.' :: afterLastDot l ∧ '.' ∉ afterLastDot l := by
  obtain ⟨rest, hrest⟩ := dropWhile_ne_of_mem (l := l.reverse) (by simpa using h)
  have hdec : l.reverse = l.reverse.takeWhile notDot ++ '.' :: rest := by
    conv_lhs => rw [← List.takeWhile_append_dropWhile (p := notDot) (l := l.reverse)]
    rw [hrest]
  have h2 := congrArg List.reverse hdec
  rw [List.reverse_reverse] at h2
  refine ⟨rest.reverse, ?_, ?_⟩
  · rw [afterLastDot]
    calc l = (l.reverse.takeWhile notDot ++ '.' :: rest).reverse := h2
      _ = ('.' :: rest).reverse ++ (l.reverse.takeWhile notDot).reverse := by
          rw [List.reverse_append]
      _ = rest.reverse ++ '.' :: (l.reverse.takeWhile notDot).reverse := by
          rw [List.reverse_cons]
          simp
  · rw [afterLastDot]
    intro hmem
    have hmem2 : '.' ∈ l.reverse.takeWhile notDot := List.mem_reverse.mp hmem
    have h3 := List.mem_takeWhile_imp hmem2
    rw [notDot_dot] at h3
    cases h3

theorem afterLastDot_of_decomp {base ext : List Char} (hext : '.' ∉ ext) :
    afterLastDot (base ++ '.' :: ext) = ext := by
  rw [afterLastDot, List.reverse_append, List.reverse_cons, List.append_assoc]
  have hall : ∀ c ∈ ext.reverse, notDot c = true := by
    intro c hc
    rw [notDot]
    simp only [decide_eq_true_eq]
    intro hcdot
    exact hext (by rw [← hcdot]; exact List.mem_reverse.mp hc)
  rw [takeWhile_append_of_all hall]
  rw [show (['.'] ++ base.reverse) = '.' :: base.reverse by simp]
  rw [List.takeWhile_cons_of_neg (by simp [notDot])]
  simp

theorem contains_dot_of_decomp {base ext : List Char} :
    (base ++ '.' :: ext).contains '.' = true := by
  rw [List.contains, List.elem_iff]
  simp

theorem allowed_file_iff (f : String) : allowed_file f = true ↔ SpecAllowed f := by
  rw [allowed_file, Bool.and_eq_true]
  constructor
  · rintro ⟨h1, h2⟩
    have hdot : '.' ∈ f.data := by
      rw [List.contains, List.elem_iff] at h1
      exact h1
    obtain ⟨base, hbase, hnd⟩ := afterLastDot_spec hdot
    refine ⟨base, afterLastDot f.data, hbase, hnd, ?_⟩
    rw [List.contains, List.elem_iff] at h2
    exact h2
  · rintro ⟨base, ext, hdec, hnd, hmem⟩
    constructor
    · rw [hdec]
      exact contains_dot_of_decomp
    · rw [hdec, afterLastDot_of_decomp hnd, List.contains, List.elem_iff]
      exact hmem

theorem buildPages_ok (pages : List (String × String)) (idx : Nat) :
    ∃ ps total, buildPages pages idx = .ok (ps, total) := by
  induction pages generalizing idx with
  | nil => exact ⟨[], 0, rfl⟩
  | cons pg rest ih =>
    obtain ⟨pgk, text⟩ := pg
    obtain ⟨items, hx, _⟩ := extract_ok text
    obtain ⟨ps, total, hb⟩ := ih (idx + 1)
    refine ⟨⟨toString (idx + 1), "Bill Detail", items⟩ :: ps, items.length + total, ?_⟩
    rw [buildPages, hx, hb]

theorem buildPages_props :
    ∀ (pages : List (String × String)) (idx : Nat) (ps : List PageOut) (total : Nat),
      buildPages pages idx = .ok (ps, total) →
      ps.length = pages.length ∧
      total = (ps.map (fun p => p.bill_items.length)).sum ∧
      ∀ j (h : j < ps.length),
        (ps.get ⟨j, h⟩).page_no = toString (idx + j + 1) ∧
        (ps.get ⟨j, h⟩).page_type = "Bill Detail" := by
  intro pages
  induction pages with
  | nil =>
    intro idx ps total h
    rw [buildPages] at h
    simp only [Except.ok.injEq, Prod.mk.injEq] at h
    obtain ⟨hps, htot⟩ := h
    subst hps
    subst htot
    exact ⟨rfl, rfl, fun j hj => absurd hj (by simp)⟩
  | cons pg rest ih =>
    intro idx ps total h
    obtain ⟨pgk, text⟩ := pg
    rw [buildPages] at h
    cases hx : extract_bill_items_regex text with
    | error e => rw [hx] at h; cases h
    | ok items =>
      rw [hx] at h
      cases hb : buildPages rest (idx + 1) with
      | error e => rw [hb] at h; cases h
      | ok v =>
        obtain ⟨ps2, total2⟩ := v
        rw [hb] at h
        simp only [Except.ok.injEq, Prod.mk.injEq] at h
        obtain ⟨hps, htotal⟩ := h
        obtain ⟨ih1, ih2, ih3⟩ := ih (idx + 1) ps2 total2 hb
        subst hps
        constructor
        · simp [ih1]
        constructor
        · rw [← htotal]
          simp only [List.map_cons, List.sum_cons]
          rw [ih2]
        · intro j hj
          cases j with
          | zero =>
            constructor
            · show toString (idx + 1) = toString (idx + 0 + 1)
              rfl
            · rfl
          | succ j2 =>
            have hj2 : j2 < ps2.length := by
              simp at hj
              omega
            obtain ⟨hp1, hp2⟩ := ih3 j2 hj2
            constructor
            · show (ps2.get ⟨j2, hj2⟩).page_no = toString (idx + (j2 + 1) + 1)
              rw [hp1]
              congr 1
              omega
            · exact hp2

theorem ocr_webhook_ok {f : String} (hf : allowed_file f = true)
    (pages : List (String × String)) :
    ∃ r, ocr_webhook f pages = .ok r := by
  obtain ⟨ps, total, hb⟩ := buildPages_ok pages 0
  refine ⟨⟨ps, total⟩, ?_⟩
  rw [ocr_webhook, hf, hb]
  rfl

theorem ocr_webhook_reject {f : String} (hf : allowed_file f = false)
    (pages : List (String × String)) :
    ocr_webhook f pages = .error (500, unsupportedDetail) := by
  rw [ocr_webhook, hf]
  rfl

theorem ocr_webhook_props {f : String} {pages : List (String × String)} {r : OcrResponse}
    (h : ocr_webhook f pages = .ok r) :
    r.pagewise_line_items.length = pages.length ∧
    r.total_item_count = (r.pagewise_line_items.map (fun p => p.bill_items.length)).sum ∧
    ∀ j (hj : j < r.pagewise_line_items.length),
      (r.pagewise_line_items.get ⟨j, hj⟩).page_no = toString (j + 1) ∧
      (r.pagewise_line_items.get ⟨j, hj⟩).page_type = "Bill Detail" := by
  rw [ocr_webhook] at h
  cases hf : allowed_file f with
  | false => rw [hf] at h; cases h
  | true =>
    rw [hf] at h
    simp only [Bool.not_true] at h
    cases hb : buildPages pages 0 with
    | error e => rw [hb] at h; cases h
    | ok v =>
      obtain ⟨ps, total⟩ := v
      rw [hb] at h
      rw [if_neg (show ¬(false = true) by simp)] at h
      have hr : r = ⟨ps, total⟩ := by
        simp only [Except.ok.injEq] at h
        exact h.symm
      subst hr
      obtain ⟨h1, h2, h3⟩ := buildPages_props pages 0 ps total hb
      refine ⟨h1, h2, ?_⟩
      intro j hj
      obtain ⟨hp1, hp2⟩ := h3 j hj
      rw [hp1, hp2]
      constructor
      · congr 1
        omega
      · rfl

end Webhook

namespace Webhook

/-! ### Evaluation helpers for concrete inputs -/

theorem mkItem_eval {m : MatchRes} {wn wq wr wa : List Char} {q r2 a2 : ℚ}
    (hc : m.caps = [("name", wn), ("qty", wq), ("rate", wr), ("amount", wa)])
    (hq : pyFloat (String.mk wq) = .ok q) (hr : pyFloat (String.mk wr) = .ok r2)
    (ha : pyFloat (String.mk wa) = .ok a2) :
    mkItem m = .ok ⟨normName (String.mk wn), q, r2, a2⟩ := by
  simp only [mkItem, hc]
  rw [show getCap [("name", wn), ("qty", wq), ("rate", wr), ("amount", wa)] "name" = wn from rfl]
  rw [show getCap [("name", wn), ("qty", wq), ("rate", wr), ("amount", wa)] "qty" = wq from rfl]
  rw [show getCap [("name", wn), ("qty", wq), ("rate", wr), ("amount", wa)] "rate" = wr from rfl]
  rw [show getCap [("name", wn), ("qty", wq), ("rate", wr), ("amount", wa)] "amount" = wa from rfl]
  rw [hq, hr, ha]

theorem mapItems_singleton {m : MatchRes} {it : LineItem} (h : mkItem m = .ok it) :
    mapItems [m] = .ok [it] := by
  rw [mapItems, h, mapItems]

end Webhook

namespace Webhook

/-! ### The claims -/

set_option maxRecDepth 10000

/-- C1: the extractor applies the pharmacy, hospital and investigation
patterns independently against the same full text and returns the three
match lists concatenated flat, in pattern order; within each pattern the
matches come in strictly increasing left-to-right position; and a text
segment matched by both the pharmacy and hospital patterns (here the
whole of `"Item 1 2 3"`, span 0-10 under both) yields two `LineItem`
entries with no cross-pattern deduplication. -/
theorem C1_pattern_independence :
    (∀ text : String, ∃ l1 l2 l3,
      mapItems (finditer pharmacyPattern text.data) = .ok l1 ∧
      mapItems (finditer hospitalPattern text.data) = .ok l2 ∧
      mapItems (finditer investigationPattern text.data) = .ok l3 ∧
      extract_bill_items_regex text = .ok (l1 ++ l2 ++ l3)) ∧
    (∀ text : String,
      List.Chain' (· < ·) ((finditer pharmacyPattern text.data).map MatchRes.mstart) ∧
      List.Chain' (· < ·) ((finditer hospitalPattern text.data).map MatchRes.mstart) ∧
      List.Chain' (· < ·) ((finditer investigationPattern text.data).map MatchRes.mstart)) ∧
    ((finditer pharmacyPattern "Item 1 2 3".data).map (fun m => (m.mstart, m.mstop)) =
        [(0, 10)] ∧
      (finditer hospitalPattern "Item 1 2 3".data).map (fun m => (m.mstart, m.mstop)) =
        [(0, 10)] ∧
      extract_bill_items_regex "Item 1 2 3" =
        .ok [⟨"Item", 1, 2, 3⟩, ⟨"Item", 1, 2, 3⟩]) := by
  refine ⟨?_, ?_, by decide, by decide, by decide⟩
  · intro text
    obtain ⟨l1, h1, _⟩ := finditer_items_good pharmacyPattern text.data
      (fun i stop caps h => matchAt_caps_pharm h)
    obtain ⟨l2, h2, _⟩ := finditer_items_good hospitalPattern text.data
      (fun i stop caps h => matchAt_caps_hosp h)
    obtain ⟨l3, h3, _⟩ := finditer_items_good investigationPattern text.data
      (fun i stop caps h => matchAt_caps_invg h)
    exact ⟨l1, l2, l3, h1, h2, h3, extract_decomp h1 h2 h3⟩
  · intro text
    exact ⟨finditer_sorted _ _, finditer_sorted _ _, finditer_sorted _ _⟩

/-- C2 (amended): every `LineItem` produced by the extractor has
quantity, rate and amount that parsed as non-negative decimals (the
parse never fails, so the extractor always returns `ok`), and a
whitespace-normalised name (a fixed point of `normName`).  The original
claim additionally asserted the name is non-empty after normalisation,
which the code does not guarantee — see the counterexample. -/
theorem C2_record_invariant :
    (∀ text : String, ∃ items, extract_bill_items_regex text = .ok items) ∧
    (∀ (text : String) (items : List LineItem) (it : LineItem),
      extract_bill_items_regex text = .ok items → it ∈ items →
      0 ≤ it.item_quantity ∧ 0 ≤ it.item_rate ∧ 0 ≤ it.item_amount ∧
        normName it.item_name = it.item_name) := by
  constructor
  · intro text
    obtain ⟨items, hx, _⟩ := extract_ok text
    exact ⟨items, hx⟩
  · intro text items it hx hmem
    obtain ⟨items2, hx2, hg⟩ := extract_ok text
    rw [hx] at hx2
    have : items = items2 := by
      simp only [Except.ok.injEq] at hx2
      exact hx2
    subst this
    exact hg it hmem

theorem C2_record_invariant_witness :
    (∃ items, extract_bill_items_regex "Item 1 2 3" = .ok items) ∧
    (0 ≤ (⟨"Item", 1, 2, 3⟩ : LineItem).item_quantity ∧
      0 ≤ (⟨"Item", 1, 2, 3⟩ : LineItem).item_rate ∧
      0 ≤ (⟨"Item", 1, 2, 3⟩ : LineItem).item_amount ∧
      normName (⟨"Item", 1, 2, 3⟩ : LineItem).item_name =
        (⟨"Item", 1, 2, 3⟩ : LineItem).item_name) :=
  ⟨C2_record_invariant.1 "Item 1 2 3",
    C2_record_invariant.2 "Item 1 2 3" [⟨"Item", 1, 2, 3⟩, ⟨"Item", 1, 2, 3⟩]
      ⟨"Item", 1, 2, 3⟩ (by decide) (by simp)⟩

/-- C2 counterexample: on the input `"  1 2 3"` both the pharmacy and
hospital patterns match with name capture `" "`, which normalises to the
empty string, so the extractor emits items whose `item_name` is empty —
refuting the claimed non-emptiness of normalised names. -/
theorem C2_name_empty_counterexample :
    extract_bill_items_regex "  1 2 3" = .ok [⟨"", 1, 2, 3⟩, ⟨"", 1, 2, 3⟩] ∧
    ∃ items it, extract_bill_items_regex "  1 2 3" = .ok items ∧ it ∈ items ∧
      it.item_name = "" :=
  ⟨by decide, [⟨"", 1, 2, 3⟩, ⟨"", 1, 2, 3⟩], ⟨"", 1, 2, 3⟩, by decide, by simp, rfl⟩

/-- C3 (code_bug evidence): an upload whose filename has an allowed
final dot-suffix (pdf, png, jpg, jpeg case-insensitively) is accepted
and processed; any other extension, or no dot at all, is rejected
before the OCR result is consulted (one fixed error for every `pages`
argument) — but, contrary to the claim and to the intent of the
`status_code=400` raise on line 222, the response is a 500 server
error: the blanket `except Exception` on line 277 catches the
`HTTPException(400)` and re-raises it with status 500.  In particular
`"report.docx"` is answered with status 500, never 400. -/
theorem C3_extension_gate :
    (∀ (f : String) (pages : List (String × String)),
      SpecAllowed f → ∃ resp, ocr_webhook f pages = .ok resp) ∧
    (∀ f : String, ¬ SpecAllowed f →
      ∃ msg, ∀ pages : List (String × String),
        ocr_webhook f pages = .error (500, msg)) ∧
    (∀ pages : List (String × String), ∀ msg : String,
      ocr_webhook "report.docx" pages ≠ .error (400, msg)) := by
  refine ⟨?_, ?_, ?_⟩
  · intro f pages hs
    exact ocr_webhook_ok ((allowed_file_iff f).mpr hs) pages
  · intro f hs
    have hfalse : allowed_file f = false := by
      cases haf : allowed_file f
      · rfl
      · exact absurd ((allowed_file_iff f).mp haf) hs
    exact ⟨unsupportedDetail, fun pages => ocr_webhook_reject hfalse pages⟩
  · intro pages msg hcontra
    have hfalse : allowed_file "report.docx" = false := by decide
    rw [ocr_webhook_reject hfalse pages] at hcontra
    simp at hcontra

theorem C3_extension_gate_witness :
    (∃ resp, ocr_webhook "scan.pdf" [("page_1", "hello")] = .ok resp) ∧
    (∃ msg, ∀ pages : List (String × String),
      ocr_webhook "report.docx" pages = .error (500, msg)) ∧
    ocr_webhook "report.docx" [("page_1", "hello")] ≠
      .error (400, "Unsupported file type. Allowed: pdf, png, jpg, jpeg") :=
  ⟨C3_extension_gate.1 "scan.pdf" [("page_1", "hello")]
      ⟨"scan".data, "pdf".data, by decide, by decide, by decide⟩,
    C3_extension_gate.2.1 "report.docx"
      (fun hs => absurd ((allowed_file_iff "report.docx").mpr hs) (by decide)),
    C3_extension_gate.2.2 [("page_1", "hello")]
      "Unsupported file type. Allowed: pdf, png, jpg, jpeg"⟩

/-- C4: on the line `"Paracetamol 500mg 2 10.50 21.00"` the pharmacy
pattern produces exactly one record, with name `"Paracetamol 500mg"`
(the lazy name capture stops before the numeric triple), quantity 2,
rate 10.50 and amount 21.00. -/
theorem C4_pharmacy_line :
    mapItems (finditer pharmacyPattern "Paracetamol 500mg 2 10.50 21.00".data) =
      .ok [⟨"Paracetamol 500mg", 2, 10.50, 21.00⟩] := by
  have hf : finditer pharmacyPattern "Paracetamol 500mg 2 10.50 21.00".data =
      [⟨0, 31, [("name", "Paracetamol 500mg".data), ("qty", "2".data),
        ("rate", "10".data ++ '.' :: "50".data),
        ("amount", "21".data ++ '.' :: "00".data)]⟩] := by
    decide
  have hq : pyFloat (String.mk "2".data) = .ok (2 : ℚ) := by decide
  have hr : pyFloat (String.mk ("10".data ++ '.' :: "50".data)) = .ok (10.50 : ℚ) := by
    rw [pyFloat_ok_frac (by decide) (by decide) (by decide) (by decide)]
    rw [show digitsVal "10".data = 10 from by decide,
      show digitsVal "50".data = 50 from by decide,
      show ("50".data).length = 2 from by decide,
      show ((10 : Nat) : ℚ) + ((50 : Nat) : ℚ) / (10 : ℚ) ^ 2 = 10.50 from by norm_num]
  have ha : pyFloat (String.mk ("21".data ++ '.' :: "00".data)) = .ok (21.00 : ℚ) := by
    rw [pyFloat_ok_frac (by decide) (by decide) (by decide) (by decide)]
    rw [show digitsVal "21".data = 21 from by decide,
      show digitsVal "00".data = 0 from by decide,
      show ("00".data).length = 2 from by decide,
      show ((21 : Nat) : ℚ) + ((0 : Nat) : ℚ) / (10 : ℚ) ^ 2 = 21.00 from by norm_num]
  rw [hf, mapItems_singleton (mkItem_eval rfl hq hr ha)]
  rw [show normName (String.mk "Paracetamol 500mg".data) = "Paracetamol 500mg" from by decide]

/-- C5: on the line `"CBC Test 12/05/2023 1 300 300"` the investigation
pattern produces exactly the record with name `"CBC Test"`, quantity 1,
rate 300 and amount 300; the match spans the whole line (0-29), so the
date token is consumed but appears in no output field. -/
theorem C5_investigation_line :
    mapItems (finditer investigationPattern "CBC Test 12/05/2023 1 300 300".data) =
      .ok [⟨"CBC Test", 1, 300, 300⟩] ∧
    (finditer investigationPattern "CBC Test 12/05/2023 1 300 300".data).map
      (fun m => (m.mstart, m.mstop)) = [(0, 29)] := by
  constructor
  · decide
  · decide

/-- C6: every successful response carries sequential 1-based page
numbers rendered as strings regardless of the OCR page keys, the
constant page type "Bill Detail", and a total item count equal to the
sum of the per-page item counts; in particular a two-page input (keys
"7" and "9") whose first page yields 2 items and second yields 0
reports total 2 with two page entries, the second empty. -/
theorem C6_aggregation :
    (∀ (f : String) (pages : List (String × String)) (r : OcrResponse),
      ocr_webhook f pages = .ok r →
      r.pagewise_line_items.length = pages.length ∧
      r.total_item_count =
        (r.pagewise_line_items.map (fun p => p.bill_items.length)).sum ∧
      ∀ j (hj : j < r.pagewise_line_items.length),
        (r.pagewise_line_items.get ⟨j, hj⟩).page_no = toString (j + 1) ∧
        (r.pagewise_line_items.get ⟨j, hj⟩).page_type = "Bill Detail") ∧
    ocr_webhook "bill.pdf" [("7", "Item 1 2 3"), ("9", "hello")] =
      .ok ⟨[⟨"1", "Bill Detail", [⟨"Item", 1, 2, 3⟩, ⟨"Item", 1, 2, 3⟩]⟩,
        ⟨"2", "Bill Detail", []⟩], 2⟩ :=
  ⟨fun _ _ _ h => ocr_webhook_props h, by decide⟩

theorem C6_aggregation_witness :
    (⟨[⟨"1", "Bill Detail", [⟨"Item", 1, 2, 3⟩, ⟨"Item", 1, 2, 3⟩]⟩,
        ⟨"2", "Bill Detail", []⟩], 2⟩ : OcrResponse).pagewise_line_items.length =
      [("7", "Item 1 2 3"), ("9", "hello")].length ∧
    (⟨[⟨"1", "Bill Detail", [⟨"Item", 1, 2, 3⟩, ⟨"Item", 1, 2, 3⟩]⟩,
        ⟨"2", "Bill Detail", []⟩], 2⟩ : OcrResponse).total_item_count =
      ((⟨[⟨"1", "Bill Detail", [⟨"Item", 1, 2, 3⟩, ⟨"Item", 1, 2, 3⟩]⟩,
        ⟨"2", "Bill Detail", []⟩], 2⟩ : OcrResponse).pagewise_line_items.map
          (fun p => p.bill_items.length)).sum ∧
    ∀ j (hj : j < (⟨[⟨"1", "Bill Detail", [⟨"Item", 1, 2, 3⟩, ⟨"Item", 1, 2, 3⟩]⟩,
        ⟨"2", "Bill Detail", []⟩], 2⟩ : OcrResponse).pagewise_line_items.length),
      ((⟨[⟨"1", "Bill Detail", [⟨"Item", 1, 2, 3⟩, ⟨"Item", 1, 2, 3⟩]⟩,
        ⟨"2", "Bill Detail", []⟩], 2⟩ : OcrResponse).pagewise_line_items.get
          ⟨j, hj⟩).page_no = toString (j + 1) ∧
      ((⟨[⟨"1", "Bill Detail", [⟨"Item", 1, 2, 3⟩, ⟨"Item", 1, 2, 3⟩]⟩,
        ⟨"2", "Bill Detail", []⟩], 2⟩ : OcrResponse).pagewise_line_items.get
          ⟨j, hj⟩).page_type = "Bill Detail" :=
  C6_aggregation.1 "bill.pdf" [("7", "Item 1 2 3"), ("9", "hello")]
    ⟨[⟨"1", "Bill Detail", [⟨"Item", 1, 2, 3⟩, ⟨"Item", 1, 2, 3⟩]⟩,
      ⟨"2", "Bill Detail", []⟩], 2⟩ (by decide)

/-- C7: when none of the three patterns matches at any position of the
text, the extractor returns the empty list (and no error). -/
theorem C7_no_match_empty :
    ∀ text : String,
      ((∀ i, i ≤ text.data.length → matchAt pharmacyPattern text.data i = none) ∧
       (∀ i, i ≤ text.data.length → matchAt hospitalPattern text.data i = none) ∧
       (∀ i, i ≤ text.data.length → matchAt investigationPattern text.data i = none)) →
      extract_bill_items_regex text = .ok [] := by
  rintro text ⟨h1, h2, h3⟩
  have f1 : finditer pharmacyPattern text.data = [] := finditer_eq_nil_iff.mpr h1
  have f2 : finditer hospitalPattern text.data = [] := finditer_eq_nil_iff.mpr h2
  have f3 : finditer investigationPattern text.data = [] := finditer_eq_nil_iff.mpr h3
  have m1 : mapItems (finditer pharmacyPattern text.data) = .ok [] := by rw [f1]; rfl
  have m2 : mapItems (finditer hospitalPattern text.data) = .ok [] := by rw [f2]; rfl
  have m3 : mapItems (finditer investigationPattern text.data) = .ok [] := by rw [f3]; rfl
  have e := extract_decomp m1 m2 m3
  simpa using e

theorem C7_no_match_empty_witness :
    extract_bill_items_regex "hello" = .ok [] :=
  C7_no_match_empty "hello" (by
    have h1 : ∀ i ∈ List.range 6, matchAt pharmacyPattern "hello".data i = none := by decide
    have h2 : ∀ i ∈ List.range 6, matchAt hospitalPattern "hello".data i = none := by decide
    have h3 : ∀ i ∈ List.range 6, matchAt investigationPattern "hello".data i = none := by
      decide
    have hl : "hello".data.length = 5 := by decide
    exact ⟨fun i hi => h1 i (List.mem_range.mpr (by omega)),
      fun i hi => h2 i (List.mem_range.mpr (by omega)),
      fun i hi => h3 i (List.mem_range.mpr (by omega))⟩)

/-- C8: the name normalisation (collapse whitespace runs to one space,
trim the ends) is idempotent: applying it twice equals applying it
once, for every string. -/
theorem C8_normalisation_idempotent :
    ∀ s : String, normName (normName s) = normName s :=
  normName_idem

/-- C9: on the single line `"CBC Test 12/05/2023 1 300 300"` the full
extractor returns exactly three items in order: the pharmacy and
hospital items, each absorbing the date into the name
(`"CBC Test 12/05/2023"`) with quantity 1, rate 300, amount 300,
followed by the investigation item with name `"CBC Test"` and the same
numbers. -/
theorem C9_full_extract_date_line :
    mapItems (finditer pharmacyPattern "CBC Test 12/05/2023 1 300 300".data) =
      .ok [⟨"CBC Test 12/05/2023", 1, 300, 300⟩] ∧
    mapItems (finditer hospitalPattern "CBC Test 12/05/2023 1 300 300".data) =
      .ok [⟨"CBC Test 12/05/2023", 1, 300, 300⟩] ∧
    mapItems (finditer investigationPattern "CBC Test 12/05/2023 1 300 300".data) =
      .ok [⟨"CBC Test", 1, 300, 300⟩] ∧
    extract_bill_items_regex "CBC Test 12/05/2023 1 300 300" =
      .ok [⟨"CBC Test 12/05/2023", 1, 300, 300⟩, ⟨"CBC Test 12/05/2023", 1, 300, 300⟩,
        ⟨"CBC Test", 1, 300, 300⟩] := by
  refine ⟨by decide, by decide, by decide, by decide⟩

/-- C10: for every text, if the pharmacy pattern has at least one match
then the hospital pattern (whose name class is a superset) also has at
least one match. -/
theorem C10_pharmacy_implies_hospital :
    ∀ text : String, finditer pharmacyPattern text.data ≠ [] →
      finditer hospitalPattern text.data ≠ [] :=
  fun _ h => finditer_pharm_to_hosp h

theorem C10_pharmacy_implies_hospital_witness :
    finditer hospitalPattern "Item 1 2 3".data ≠ [] :=
  C10_pharmacy_implies_hospital "Item 1 2 3" (by decide)

end Webhook
